import Mathlib

/-
Verification of the blindbackup core against its specification.

The development shallowly embeds the relevant parts of the source:

* cryptfile.py   : filename encryption, file body encryption, decryption and
                   re-encryption (AES-256-CBC is modelled by an abstract block
                   cipher on 16-byte blocks together with the exact CBC
                   chaining, chunking, header and padding logic of the source).
* syncdir.py     : the comparator predicate SyncDir._info_compare, the change
                   stream generator LocalFsProvider.sendchanges, the DIRECTORY
                   and FILE record handlers of LocalFsProvider.receivechanges,
                   and the unsafe-path check of LocalFsProvider.get_localpath.
* server.py      : the _checksafepath filter and the EventListener long-poll
                   observer table.
* bsync.py       : the FsEventReducer debouncing set.

Machine reads of files, sockets and clocks are made explicit inputs; random
bytes (IVs, padding) are explicit parameters.
-/

namespace BlindBackup

/-- A byte string.  Each element is intended to be smaller than 256. -/
abbrev Bytes := List Nat

/-- All entries of the list are bytes (smaller than 256). -/
def ValidBytes (b : Bytes) : Prop := ∀ x ∈ b, x < 256

instance : DecidablePred ValidBytes := fun b =>
  List.decidableBAll (fun x => x < 256) b

theorem validBytes_append {a b : Bytes} (ha : ValidBytes a) (hb : ValidBytes b) :
    ValidBytes (a ++ b) := by
  intro x hx
  rcases List.mem_append.1 hx with h | h
  · exact ha x h
  · exact hb x h

theorem validBytes_replicate (n v : Nat) (h : v < 256) :
    ValidBytes (List.replicate n v) := by
  intro x hx
  rcases List.eq_of_mem_replicate hx with rfl
  exact h

theorem validBytes_take (n : Nat) {b : Bytes} (hb : ValidBytes b) :
    ValidBytes (b.take n) := fun x hx => hb x (List.mem_of_mem_take hx)

theorem validBytes_drop (n : Nat) {b : Bytes} (hb : ValidBytes b) :
    ValidBytes (b.drop n) := fun x hx => hb x (List.mem_of_mem_drop hx)

/-- Pointwise xor of two byte strings (zipWith truncates to the shorter). -/
def bxor (a b : Bytes) : Bytes := List.zipWith (fun x y => x ^^^ y) a b

@[simp] theorem bxor_nil_left (b : Bytes) : bxor [] b = [] := rfl

@[simp] theorem bxor_nil_right (a : Bytes) : bxor a [] = [] := by
  cases a <;> rfl

@[simp] theorem length_bxor (a b : Bytes) :
    (bxor a b).length = min a.length b.length := by
  simp [bxor]

theorem bxor_bxor_cancel : ∀ (a b : Bytes), a.length = b.length →
    bxor a (bxor a b) = b
  | [], [], _ => rfl
  | x :: xs, y :: ys, h => by
    simp only [bxor, List.zipWith] at *
    refine congrArg₂ (· :: ·) ?_ ?_
    · exact Nat.xor_cancel_left x y
    · exact bxor_bxor_cancel xs ys (by simpa using h)

theorem validBytes_bxor : ∀ (a b : Bytes), ValidBytes a → ValidBytes b →
    ValidBytes (bxor a b)
  | [], _, _, _ => by intro x hx; simp [bxor] at hx
  | _ :: _, [], _, _ => by intro x hx; simp [bxor] at hx
  | x :: xs, y :: ys, ha, hb => by
    intro v hv
    simp only [bxor, List.zipWith_cons_cons, List.mem_cons] at hv
    rcases hv with rfl | hv
    · exact Nat.xor_lt_two_pow (n := 8) (ha x (by simp)) (hb y (by simp))
    · exact validBytes_bxor xs ys (fun u hu => ha u (by simp [hu]))
        (fun u hu => hb u (by simp [hu])) v hv

/-- An abstract 16-byte block cipher: AES-256 keyed by a hashed key.  The
encryption and decryption directions are opaque functions of the key and the
block; the CBC mode, chunking and padding around them follow the source. -/
structure BlockCipher where
  enc : Bytes → Bytes → Bytes
  dec : Bytes → Bytes → Bytes

/-- The cipher behaves like a block cipher for the given key: on a 16-byte
block of valid bytes, decryption inverts encryption and encryption produces a
16-byte block of valid bytes. -/
def BlockCipher.Good (C : BlockCipher) (key : Bytes) : Prop :=
  ∀ b : Bytes, b.length = 16 → ValidBytes b →
    C.dec key (C.enc key b) = b ∧ (C.enc key b).length = 16 ∧ ValidBytes (C.enc key b)

/-- Semantics of the library CBC encryptor context `update` call: the state is
the current chaining value together with the buffered partial block; bytes are
consumed one by one, and each completed 16-byte block is xored with the
chaining value, encrypted and emitted.  Returns (output, chain, buffer). -/
def cbcEncUpd (C : BlockCipher) (key : Bytes) : Bytes → Bytes → Bytes → Bytes × Bytes × Bytes
  | iv, acc, [] => ([], iv, acc)
  | iv, acc, x :: xs =>
    if acc.length = 15 then
      let c := C.enc key (bxor iv (acc ++ [x]))
      let r := cbcEncUpd C key c [] xs
      (c ++ r.1, r.2)
    else
      cbcEncUpd C key iv (acc ++ [x]) xs

/-- Semantics of the library CBC decryptor context `update` call; the chaining
value for the next block is the previous ciphertext block. -/
def cbcDecUpd (C : BlockCipher) (key : Bytes) : Bytes → Bytes → Bytes → Bytes × Bytes × Bytes
  | iv, acc, [] => ([], iv, acc)
  | iv, acc, x :: xs =>
    if acc.length = 15 then
      let p := bxor iv (C.dec key (acc ++ [x]))
      let r := cbcDecUpd C key (acc ++ [x]) [] xs
      (p ++ r.1, r.2)
    else
      cbcDecUpd C key iv (acc ++ [x]) xs

theorem cbcEncUpd_append (C : BlockCipher) (key : Bytes) :
    ∀ (a b iv acc : Bytes),
      cbcEncUpd C key iv acc (a ++ b) =
        ((cbcEncUpd C key iv acc a).1 ++
           (cbcEncUpd C key (cbcEncUpd C key iv acc a).2.1 (cbcEncUpd C key iv acc a).2.2 b).1,
         (cbcEncUpd C key (cbcEncUpd C key iv acc a).2.1 (cbcEncUpd C key iv acc a).2.2 b).2)
  | [], b, iv, acc => rfl
  | x :: xs, b, iv, acc => by
    simp only [List.cons_append, cbcEncUpd, List.append_eq]
    by_cases h : acc.length = 15
    · simp only [if_pos h]
      rw [cbcEncUpd_append C key xs b]
      simp [List.append_assoc]
    · simp only [if_neg h]
      exact cbcEncUpd_append C key xs b iv (acc ++ [x])

theorem cbcDecUpd_append (C : BlockCipher) (key : Bytes) :
    ∀ (a b iv acc : Bytes),
      cbcDecUpd C key iv acc (a ++ b) =
        ((cbcDecUpd C key iv acc a).1 ++
           (cbcDecUpd C key (cbcDecUpd C key iv acc a).2.1 (cbcDecUpd C key iv acc a).2.2 b).1,
         (cbcDecUpd C key (cbcDecUpd C key iv acc a).2.1 (cbcDecUpd C key iv acc a).2.2 b).2)
  | [], b, iv, acc => rfl
  | x :: xs, b, iv, acc => by
    simp only [List.cons_append, cbcDecUpd, List.append_eq]
    by_cases h : acc.length = 15
    · simp only [if_pos h]
      rw [cbcDecUpd_append C key xs b]
      simp [List.append_assoc]
    · simp only [if_neg h]
      exact cbcDecUpd_append C key xs b iv (acc ++ [x])

theorem cbcEncUpd_block (C : BlockCipher) (key : Bytes) :
    ∀ (b acc iv : Bytes), acc.length + b.length = 16 → b ≠ [] →
      cbcEncUpd C key iv acc b =
        (C.enc key (bxor iv (acc ++ b)), C.enc key (bxor iv (acc ++ b)), [])
  | [], _, _, _, hne => absurd rfl hne
  | [x], acc, iv, hlen, _ => by
    have hacc : acc.length = 15 := by simpa using hlen
    simp [cbcEncUpd, hacc]
  | x :: y :: xs, acc, iv, hlen, _ => by
    have hacc : ¬ acc.length = 15 := by
      simp only [List.length_cons] at hlen; omega
    have hstep : cbcEncUpd C key iv acc (x :: y :: xs) =
        cbcEncUpd C key iv (acc ++ [x]) (y :: xs) := by
      conv_lhs => rw [cbcEncUpd]
      rw [if_neg hacc]
    rw [hstep, cbcEncUpd_block C key (y :: xs) (acc ++ [x]) iv
      (by simp at hlen ⊢; omega) (by simp)]
    simp [List.append_assoc]

theorem cbcDecUpd_block (C : BlockCipher) (key : Bytes) :
    ∀ (b acc iv : Bytes), acc.length + b.length = 16 → b ≠ [] →
      cbcDecUpd C key iv acc b =
        (bxor iv (C.dec key (acc ++ b)), acc ++ b, [])
  | [], _, _, _, hne => absurd rfl hne
  | [x], acc, iv, hlen, _ => by
    have hacc : acc.length = 15 := by simpa using hlen
    simp [cbcDecUpd, hacc]
  | x :: y :: xs, acc, iv, hlen, _ => by
    have hacc : ¬ acc.length = 15 := by
      simp only [List.length_cons] at hlen; omega
    have hstep : cbcDecUpd C key iv acc (x :: y :: xs) =
        cbcDecUpd C key iv (acc ++ [x]) (y :: xs) := by
      conv_lhs => rw [cbcDecUpd]
      rw [if_neg hacc]
    rw [hstep, cbcDecUpd_block C key (y :: xs) (acc ++ [x]) iv
      (by simp at hlen ⊢; omega) (by simp)]
    simp [List.append_assoc]

/-- Block-level specification of CBC encryption: returns the list of
ciphertext blocks and the final chaining value. -/
def cbcEncBlocks (C : BlockCipher) (key : Bytes) : Bytes → List Bytes → List Bytes × Bytes
  | iv, [] => ([], iv)
  | iv, b :: bs =>
    let c := C.enc key (bxor iv b)
    let r := cbcEncBlocks C key c bs
    (c :: r.1, r.2)

/-- Block-level specification of CBC decryption. -/
def cbcDecBlocks (C : BlockCipher) (key : Bytes) : Bytes → List Bytes → List Bytes × Bytes
  | iv, [] => ([], iv)
  | iv, c :: cs =>
    let p := bxor iv (C.dec key c)
    let r := cbcDecBlocks C key c cs
    (p :: r.1, r.2)

theorem cbcEncUpd_flatten (C : BlockCipher) (key : Bytes) :
    ∀ (blocks : List Bytes) (iv : Bytes), (∀ b ∈ blocks, b.length = 16) →
      cbcEncUpd C key iv [] blocks.flatten =
        ((cbcEncBlocks C key iv blocks).1.flatten, (cbcEncBlocks C key iv blocks).2, [])
  | [], iv, _ => rfl
  | b :: bs, iv, h => by
    have hb : b.length = 16 := h b (by simp)
    simp only [List.flatten_cons]
    rw [cbcEncUpd_append C key b bs.flatten iv []]
    rw [cbcEncUpd_block C key b [] iv (by simpa using hb) (by rintro rfl; simp at hb)]
    simp only [List.nil_append]
    rw [cbcEncUpd_flatten C key bs _ (fun x hx => h x (by simp [hx]))]
    simp [cbcEncBlocks]

theorem cbcDecUpd_flatten (C : BlockCipher) (key : Bytes) :
    ∀ (blocks : List Bytes) (iv : Bytes), (∀ b ∈ blocks, b.length = 16) →
      cbcDecUpd C key iv [] blocks.flatten =
        ((cbcDecBlocks C key iv blocks).1.flatten, (cbcDecBlocks C key iv blocks).2, [])
  | [], iv, _ => rfl
  | b :: bs, iv, h => by
    have hb : b.length = 16 := h b (by simp)
    simp only [List.flatten_cons]
    rw [cbcDecUpd_append C key b bs.flatten iv []]
    rw [cbcDecUpd_block C key b [] iv (by simpa using hb) (by rintro rfl; simp at hb)]
    simp only [List.nil_append]
    rw [cbcDecUpd_flatten C key bs _ (fun x hx => h x (by simp [hx]))]
    simp [cbcDecBlocks]

/-- Any 16-aligned byte string decomposes into 16-byte blocks. -/
theorem exists_blocks : ∀ (n : Nat) (data : Bytes), data.length = 16 * n →
    ∃ blocks : List Bytes, (∀ b ∈ blocks, b.length = 16) ∧ blocks.flatten = data
  | 0, data, h => by
    have : data = [] := List.eq_nil_of_length_eq_zero (by omega)
    exact ⟨[], by simp, by simp [this]⟩
  | n + 1, data, h => by
    obtain ⟨blocks, h16, hfl⟩ :=
      exists_blocks n (data.drop 16) (by simp only [List.length_drop]; omega)
    refine ⟨data.take 16 :: blocks, ?_, ?_⟩
    · intro b hb
      rcases List.mem_cons.1 hb with rfl | hb
      · simp only [List.length_take]; omega
      · exact h16 b hb
    · simp [hfl]

theorem length_flatten_const (n : Nat) : ∀ (l : List Bytes),
    (∀ b ∈ l, b.length = n) → l.flatten.length = n * l.length
  | [], _ => by simp
  | b :: bs, h => by
    have hb : b.length = n := h b (by simp)
    have ih := length_flatten_const n bs (fun x hx => h x (by simp [hx]))
    simp [ih, hb, Nat.mul_succ]
    omega

theorem cbcEncBlocks_props (C : BlockCipher) (key : Bytes) (hG : C.Good key) :
    ∀ (blocks : List Bytes) (iv : Bytes), iv.length = 16 → ValidBytes iv →
      (∀ b ∈ blocks, b.length = 16 ∧ ValidBytes b) →
      (∀ c ∈ (cbcEncBlocks C key iv blocks).1, c.length = 16 ∧ ValidBytes c) ∧
        (cbcEncBlocks C key iv blocks).2.length = 16 ∧
        ValidBytes (cbcEncBlocks C key iv blocks).2 ∧
        (cbcEncBlocks C key iv blocks).1.length = blocks.length
  | [], iv, hiv, hivv, _ => by
    refine ⟨by simp [cbcEncBlocks], ?_, ?_, ?_⟩ <;> simp [cbcEncBlocks, hiv, hivv]
  | b :: bs, iv, hiv, hivv, h => by
    have hb := h b (by simp)
    have hxlen : (bxor iv b).length = 16 := by simp [hiv, hb.1]
    have hxv : ValidBytes (bxor iv b) := validBytes_bxor iv b hivv hb.2
    have hc := hG (bxor iv b) hxlen hxv
    have ih := cbcEncBlocks_props C key hG bs (C.enc key (bxor iv b)) hc.2.1 hc.2.2
      (fun x hx => h x (by simp [hx]))
    refine ⟨?_, ?_, ?_, ?_⟩
    · intro c hmem
      simp only [cbcEncBlocks, List.mem_cons] at hmem
      rcases hmem with rfl | hmem
      · exact ⟨hc.2.1, hc.2.2⟩
      · exact ih.1 c hmem
    · simpa [cbcEncBlocks] using ih.2.1
    · simpa [cbcEncBlocks] using ih.2.2.1
    · simpa [cbcEncBlocks] using ih.2.2.2

theorem cbcDecBlocks_cbcEncBlocks (C : BlockCipher) (key : Bytes) (hG : C.Good key) :
    ∀ (blocks : List Bytes) (iv : Bytes), iv.length = 16 → ValidBytes iv →
      (∀ b ∈ blocks, b.length = 16 ∧ ValidBytes b) →
      (cbcDecBlocks C key iv (cbcEncBlocks C key iv blocks).1).1 = blocks
  | [], iv, _, _, _ => by simp [cbcEncBlocks, cbcDecBlocks]
  | b :: bs, iv, hiv, hivv, h => by
    have hb := h b (by simp)
    have hxlen : (bxor iv b).length = 16 := by simp [hiv, hb.1]
    have hxv : ValidBytes (bxor iv b) := validBytes_bxor iv b hivv hb.2
    have hc := hG (bxor iv b) hxlen hxv
    have ih := cbcDecBlocks_cbcEncBlocks C key hG bs (C.enc key (bxor iv b)) hc.2.1 hc.2.2
      (fun x hx => h x (by simp [hx]))
    simp only [cbcEncBlocks, cbcDecBlocks]
    refine congrArg₂ (· :: ·) ?_ ih
    rw [hc.1]
    exact bxor_bxor_cancel iv b (by omega)

/-- Round trip and shape facts for the streaming CBC context on 16-aligned
data with an empty initial buffer. -/
theorem cbcUpd_roundtrip (C : BlockCipher) (key : Bytes) (hG : C.Good key)
    (data iv : Bytes) (hal : 16 ∣ data.length) (hiv : iv.length = 16)
    (hivv : ValidBytes iv) (hd : ValidBytes data) :
    (cbcDecUpd C key iv [] ((cbcEncUpd C key iv [] data).1)).1 = data ∧
      ((cbcEncUpd C key iv [] data).1).length = data.length ∧
      ValidBytes ((cbcEncUpd C key iv [] data).1) ∧
      (cbcEncUpd C key iv [] data).2.2 = [] := by
  obtain ⟨n, hn⟩ := hal
  obtain ⟨blocks, h16, hfl⟩ := exists_blocks n data hn
  subst hfl
  have hbv : ∀ b ∈ blocks, b.length = 16 ∧ ValidBytes b := by
    intro b hb
    exact ⟨h16 b hb, fun x hx => hd x (List.mem_flatten.2 ⟨b, hb, hx⟩)⟩
  have hprops := cbcEncBlocks_props C key hG blocks iv hiv hivv hbv
  have henc := cbcEncUpd_flatten C key blocks iv h16
  have hct16 : ∀ c ∈ (cbcEncBlocks C key iv blocks).1, c.length = 16 :=
    fun c hc => (hprops.1 c hc).1
  have hdec := cbcDecUpd_flatten C key (cbcEncBlocks C key iv blocks).1 iv hct16
  refine ⟨?_, ?_, ?_, ?_⟩
  · rw [henc]
    simp only
    rw [hdec, cbcDecBlocks_cbcEncBlocks C key hG blocks iv hiv hivv hbv]
  · rw [henc]
    simp only
    rw [length_flatten_const 16 _ hct16, length_flatten_const 16 _ h16, hprops.2.2.2]
  · rw [henc]
    simp only
    intro x hx
    obtain ⟨c, hc, hxc⟩ := List.mem_flatten.1 hx
    exact (hprops.1 c hc).2 x hxc
  · rw [henc]

/-- The buffer of the streaming CBC encryptor stays empty on 16-aligned
input (no Good hypothesis needed). -/
theorem cbcEncUpd_acc_empty (C : BlockCipher) (key iv data : Bytes)
    (hal : 16 ∣ data.length) :
    (cbcEncUpd C key iv [] data).2.2 = [] := by
  obtain ⟨n, hn⟩ := hal
  obtain ⟨blocks, h16, hfl⟩ := exists_blocks n data hn
  subst hfl
  rw [cbcEncUpd_flatten C key blocks iv h16]

namespace cryptfile

/-- Little-endian encoding of a Nat on 8 bytes: the semantics of
struct.pack with format <Q (modular beyond 2 to the 64). -/
def struct_packQ (n : Nat) : Bytes :=
  [n % 256, n / 256 % 256, n / 256 ^ 2 % 256, n / 256 ^ 3 % 256,
   n / 256 ^ 4 % 256, n / 256 ^ 5 % 256, n / 256 ^ 6 % 256, n / 256 ^ 7 % 256]

/-- Decoding of an 8-byte little-endian unsigned integer: the semantics of
struct.unpack with format <Q applied to the first 8 bytes. -/
def struct_unpackQ (b : Bytes) : Nat :=
  b.getD 0 0 + 256 * b.getD 1 0 + 256 ^ 2 * b.getD 2 0 + 256 ^ 3 * b.getD 3 0 +
    256 ^ 4 * b.getD 4 0 + 256 ^ 5 * b.getD 5 0 + 256 ^ 6 * b.getD 6 0 +
    256 ^ 7 * b.getD 7 0

@[simp] theorem length_struct_packQ (n : Nat) : (struct_packQ n).length = 8 := rfl

theorem struct_unpackQ_packQ (n : Nat) (h : n < 2 ^ 64) :
    struct_unpackQ (struct_packQ n) = n := by
  simp only [struct_packQ, struct_unpackQ, List.getD]
  norm_num
  omega

theorem validBytes_struct_packQ (n : Nat) : BlindBackup.ValidBytes (struct_packQ n) := by
  intro x hx
  simp only [struct_packQ, List.mem_cons, List.not_mem_nil, or_false] at hx
  rcases hx with rfl | rfl | rfl | rfl | rfl | rfl | rfl | rfl <;> omega

open BlindBackup

/-- The read/encrypt/write loop of encrypt_file: data is consumed in chunks
of chunksize bytes; a chunk whose length is not a multiple of the block size
is padded with the next random bytes; each (padded) chunk is fed to the
streaming CBC encryptor whose state persists across chunks.  The fuel
argument bounds the number of iterations (the source loop ends when the file
is exhausted); fuel at least the data length always suffices. -/
def encrypt_loop (C : BlockCipher) (key : Bytes) (chunksize : Nat) :
    Nat → Bytes × Bytes → Bytes → Bytes → Bytes
  | 0, _, _, _ => []
  | fuel + 1, st, data, rand =>
    if data.isEmpty then []
    else
      let chunk := data.take chunksize
      let chunk2 := if chunk.length % 16 = 0 then chunk
        else chunk ++ rand.take (16 - chunk.length % 16)
      let rand2 := if chunk.length % 16 = 0 then rand
        else rand.drop (16 - chunk.length % 16)
      let r := cbcEncUpd C key st.1 st.2 chunk2
      r.1 ++ encrypt_loop C key chunksize fuel (r.2.1, r.2.2) (data.drop chunksize) rand2

/-- encrypt_file: writes the original size as an 8-byte little-endian header,
then the fresh random IV, then the CBC ciphertext of the chunk-padded data.
The random IV and the random padding bytes are explicit parameters.  The
final encryptor.finalize() call emits nothing because every processed chunk
is a multiple of the block size. -/
def encrypt_file (C : BlockCipher) (key iv : Bytes) (chunksize : Nat)
    (data rand : Bytes) : Bytes :=
  struct_packQ data.length ++ iv ++
    encrypt_loop C key chunksize (data.length + 1) (iv, []) data rand

/-- The read/decrypt/write loop of decrypt_file, streaming chunks through a
persistent CBC decryptor context. -/
def decrypt_loop (C : BlockCipher) (key : Bytes) (chunksize : Nat) :
    Nat → Bytes × Bytes → Bytes → Bytes
  | 0, _, _ => []
  | fuel + 1, st, data =>
    if data.isEmpty then []
    else
      let r := cbcDecUpd C key st.1 st.2 (data.take chunksize)
      r.1 ++ decrypt_loop C key chunksize fuel (r.2.1, r.2.2) (data.drop chunksize)

/-- decrypt_file: reads the 8-byte size header (struct.unpack raises if fewer
than 8 bytes are present), the 16-byte IV (the CBC mode constructor raises on
a short IV), decrypts the remainder through the chunked loop, lets
decryptor.finalize() raise when the ciphertext is not block-aligned, raises
the corrupt-truncated IOError when fewer bytes than the declared original
size were produced, and finally truncates the output to the declared size. -/
def decrypt_file (C : BlockCipher) (key : Bytes) (chunksize : Nat)
    (input : Bytes) : Except String Bytes :=
  if input.length < 8 then .error "struct.error: unpack requires 8 bytes"
  else
    let origsize := struct_unpackQ (input.take 8)
    let iv := (input.drop 8).take 16
    if iv.length ≠ 16 then .error "ValueError: invalid IV size"
    else
      let ct := input.drop 24
      let pt := decrypt_loop C key chunksize (ct.length + 1) (iv, []) ct
      if ct.length % 16 ≠ 0 then
        .error "ValueError: data not multiple of block length"
      else if pt.length < origsize then
        .error "Trying to decrypt a corrupt, truncated file"
      else .ok (pt.take origsize)

/-- The read/recrypt/write loop of recrypt_file: each chunk is passed through
the persistent decryptor context and its output through the persistent
encryptor context. -/
def recrypt_loop (C : BlockCipher) (dkey ekey : Bytes) (chunksize : Nat) :
    Nat → Bytes × Bytes → Bytes × Bytes → Bytes → Bytes
  | 0, _, _, _ => []
  | fuel + 1, dst, est, data =>
    if data.isEmpty then []
    else
      let d := cbcDecUpd C dkey dst.1 dst.2 (data.take chunksize)
      let e := cbcEncUpd C ekey est.1 est.2 d.1
      e.1 ++ recrypt_loop C dkey ekey chunksize fuel
        (d.2.1, d.2.2) (e.2.1, e.2.2) (data.drop chunksize)

/-- recrypt_file: reads the header and the old IV, writes the same original
size and a fresh IV, pipes the ciphertext through decryptor and encryptor,
and finally compares progress (8 header bytes + 16 IV bytes + bytes read +
the lengths of the two finalize outputs, which are empty here) with the
physical input size, raising the corrupt-truncated IOError on mismatch. -/
def recrypt_file (C : BlockCipher) (dkey ekey iv2 : Bytes) (chunksize : Nat)
    (input : Bytes) : Except String Bytes :=
  let total := input.length
  if input.length < 8 then .error "struct.error: unpack requires 8 bytes"
  else
    let origsize := struct_unpackQ (input.take 8)
    let iv1 := (input.drop 8).take 16
    if iv1.length ≠ 16 then .error "ValueError: invalid IV size"
    else
      let ct := input.drop 24
      let body := recrypt_loop C dkey ekey chunksize (ct.length + 1) (iv1, []) (iv2, []) ct
      if ct.length % 16 ≠ 0 then
        .error "ValueError: data not multiple of block length"
      else
        let progress := 8 + 16 + ct.length + 0 + 0
        if progress ≠ total then .error "Trying to recrypt a corrupt, truncated file"
        else .ok (struct_packQ origsize ++ iv2 ++ body)

theorem encrypt_loop_nil (C : BlockCipher) (key : Bytes) (cs : Nat) :
    ∀ (fuel : Nat) (st : Bytes × Bytes) (rand : Bytes),
      encrypt_loop C key cs fuel st [] rand = []
  | 0, _, _ => rfl
  | _ + 1, _, _ => by simp [encrypt_loop]

theorem decrypt_loop_nil (C : BlockCipher) (key : Bytes) (cs : Nat) :
    ∀ (fuel : Nat) (st : Bytes × Bytes),
      decrypt_loop C key cs fuel st [] = []
  | 0, _ => rfl
  | _ + 1, _ => by simp [decrypt_loop]

/-- The chunked decryption loop computes exactly one streaming CBC update of
the whole data: the context (chaining value and buffer) persists across
chunks, so the chunk size is irrelevant. -/
theorem decrypt_loop_spec (C : BlockCipher) (key : Bytes) (cs : Nat) (hcs : 0 < cs) :
    ∀ (fuel : Nat) (data iv acc : Bytes), data.length ≤ fuel →
      decrypt_loop C key cs fuel (iv, acc) data = (cbcDecUpd C key iv acc data).1
  | 0, data, iv, acc, h => by
    have hnil : data = [] := List.eq_nil_of_length_eq_zero (by omega)
    subst hnil; rfl
  | fuel + 1, data, iv, acc, h => by
    by_cases hd : data.isEmpty = true
    · have hnil : data = [] := by simpa using hd
      subst hnil; rfl
    · have hne : data ≠ [] := by simpa using hd
      have hlen : 0 < data.length := List.length_pos.2 hne
      simp only [decrypt_loop, if_neg hd]
      rw [decrypt_loop_spec C key cs hcs fuel (data.drop cs) _ _
        (by simp only [List.length_drop]; omega)]
      conv_rhs => rw [← List.take_append_drop cs data]
      rw [cbcDecUpd_append]

/-- The chunked encryption loop computes one streaming CBC update of the
data followed by the random padding: when the chunk size is a multiple of
the block size, only the last partial chunk triggers padding. -/
theorem encrypt_loop_spec (C : BlockCipher) (key : Bytes) (cs : Nat)
    (hdvd : 16 ∣ cs) (hcs : 0 < cs) :
    ∀ (fuel : Nat) (data rand iv : Bytes), data.length ≤ fuel →
      encrypt_loop C key cs fuel (iv, []) data rand =
        (cbcEncUpd C key iv []
          (data ++ (if data.length % 16 = 0 then []
            else rand.take (16 - data.length % 16)))).1
  | 0, data, rand, iv, h => by
    have hnil : data = [] := List.eq_nil_of_length_eq_zero (by omega)
    subst hnil; rfl
  | fuel + 1, data, rand, iv, h => by
    by_cases hd : data.isEmpty = true
    · have hnil : data = [] := by simpa using hd
      subst hnil; rfl
    · have hne : data ≠ [] := by simpa using hd
      have hlen : 0 < data.length := List.length_pos.2 hne
      simp only [encrypt_loop, if_neg hd]
      by_cases hsmall : data.length ≤ cs
      · rw [List.take_of_length_le hsmall, List.drop_of_length_le hsmall,
          encrypt_loop_nil]
        split <;> simp
      · have htake : (data.take cs).length = cs := by
          simp only [List.length_take]; omega
        have hchunk0 : (data.take cs).length % 16 = 0 := by
          rw [htake]; omega
        rw [if_pos hchunk0, if_pos hchunk0]
        have hmod : (data.drop cs).length % 16 = data.length % 16 := by
          simp only [List.length_drop]; omega
        have hacc : (cbcEncUpd C key iv [] (data.take cs)).2.2 = [] :=
          cbcEncUpd_acc_empty C key iv _ (by rw [htake]; exact hdvd)
        rw [hacc]
        rw [encrypt_loop_spec C key cs hdvd hcs fuel (data.drop cs) rand _
          (by simp only [List.length_drop]; omega)]
        rw [hmod]
        have hsplit : data ++ (if data.length % 16 = 0 then []
              else rand.take (16 - data.length % 16)) =
            data.take cs ++ (data.drop cs ++ (if data.length % 16 = 0 then []
              else rand.take (16 - data.length % 16))) := by
          rw [← List.append_assoc, List.take_append_drop]
        conv_rhs => rw [hsplit]
        rw [cbcEncUpd_append C key (data.take cs)
          (data.drop cs ++ (if data.length % 16 = 0 then []
            else rand.take (16 - data.length % 16))) iv []]
        rw [hacc]

end cryptfile

/-- A trivial instantiation of the abstract block cipher, used to evaluate
the embedding on concrete inputs. -/
def idCipher : BlockCipher where
  enc := fun _ b => b
  dec := fun _ b => b

theorem idCipher_good (key : Bytes) : idCipher.Good key :=
  fun _ hl hv => ⟨rfl, hl, hv⟩

/-- C1: for every file and key, decrypting the result of encrypt_file with
decrypt_file reproduces the file byte for byte, including its exact length:
the last partial block is padded with random bytes before encryption, and
decryption truncates the output to the original size stored in the 8-byte
header.  The block cipher is abstract; the encryption chunk size must be a
positive multiple of the block size (as required by the source docstring)
and the decryption chunk size merely positive; the random IV has 16 bytes
and the random padding exactly fills the last block. -/
theorem decrypt_file_encrypt_file_roundtrip (C : BlockCipher)
    (key iv data rand : Bytes) (ecs dcs : Nat)
    (hG : C.Good key) (hiv : iv.length = 16) (hivv : ValidBytes iv)
    (hdata : ValidBytes data) (hrandv : ValidBytes rand)
    (hrlen : rand.length = (16 - data.length % 16) % 16)
    (hecs16 : 16 ∣ ecs) (hecs : 0 < ecs) (hdcs : 0 < dcs)
    (hsize : data.length < 2 ^ 64) :
    cryptfile.decrypt_file C key dcs
      (cryptfile.encrypt_file C key iv ecs data rand) = .ok data := by
  have hpad : (if data.length % 16 = 0 then []
      else rand.take (16 - data.length % 16)) = rand := by
    by_cases h0 : data.length % 16 = 0
    · rw [if_pos h0]
      have : rand.length = 0 := by rw [hrlen, h0]
      exact (List.eq_nil_of_length_eq_zero this).symm
    · rw [if_neg h0]
      exact List.take_of_length_le (by omega)
  have hal : 16 ∣ (data ++ rand).length := by
    simp only [List.length_append, hrlen]
    omega
  have hrt := cbcUpd_roundtrip C key hG (data ++ rand) iv hal hiv hivv
    (validBytes_append hdata hrandv)
  have henc : cryptfile.encrypt_file C key iv ecs data rand =
      cryptfile.struct_packQ data.length ++ iv ++
        (cbcEncUpd C key iv [] (data ++ rand)).1 := by
    unfold cryptfile.encrypt_file
    rw [cryptfile.encrypt_loop_spec C key ecs hecs16 hecs (data.length + 1)
      data rand iv (by omega), hpad]
  rw [henc]
  set ct := (cbcEncUpd C key iv [] (data ++ rand)).1 with hct
  have hctlen : ct.length = (data ++ rand).length := hrt.2.1
  have h8 : (cryptfile.struct_packQ data.length ++ iv ++ ct).take 8 =
      cryptfile.struct_packQ data.length := by
    rw [List.append_assoc]
    exact List.take_left' (cryptfile.length_struct_packQ data.length)
  have hdrop8 : (cryptfile.struct_packQ data.length ++ iv ++ ct).drop 8 = iv ++ ct := by
    rw [List.append_assoc]
    exact List.drop_left' (cryptfile.length_struct_packQ data.length)
  have hiv16 : ((cryptfile.struct_packQ data.length ++ iv ++ ct).drop 8).take 16 = iv := by
    rw [hdrop8]
    exact List.take_left' hiv
  have hdrop24 : (cryptfile.struct_packQ data.length ++ iv ++ ct).drop 24 = ct := by
    refine List.drop_left' ?_
    simp [hiv]
  have hlen : (cryptfile.struct_packQ data.length ++ iv ++ ct).length = 24 + ct.length := by
    simp [hiv]
    omega
  unfold cryptfile.decrypt_file
  rw [if_neg (by omega)]
  simp only [hiv16, hiv, h8, hdrop24]
  rw [if_neg (by omega)]
  rw [cryptfile.decrypt_loop_spec C key dcs hdcs (ct.length + 1) ct iv []
    (by omega)]
  rw [hrt.1]
  have hct16 : ct.length % 16 = 0 := by
    rw [hctlen]
    exact Nat.mod_eq_zero_of_dvd hal
  rw [if_neg (by omega)]
  rw [cryptfile.struct_unpackQ_packQ data.length hsize]
  rw [if_neg (by simp only [List.length_append]; omega)]
  rw [List.take_left]

theorem decrypt_file_encrypt_file_roundtrip_witness :
    cryptfile.decrypt_file idCipher [] 5
        (cryptfile.encrypt_file idCipher [] (List.replicate 16 0) 16 [10, 20, 30]
          (List.replicate 13 7)) = .ok [10, 20, 30] :=
  decrypt_file_encrypt_file_roundtrip idCipher [] (List.replicate 16 0) [10, 20, 30]
    (List.replicate 13 7) 16 5 (idCipher_good []) (by decide) (by decide)
    (by decide) (by decide) (by decide) (by decide) (by decide) (by decide)
    (by norm_num)

/-- An encrypted file whose header declares an original size of 32 bytes but
whose ciphertext holds only one 16-byte block: a truncated encrypted file. -/
def truncEncrypted : Bytes :=
  cryptfile.struct_packQ 32 ++ List.replicate 16 0 ++ List.replicate 16 5

/-- C7: the claim states that both decrypt_file and recrypt_file fail with a
corrupt-file error whenever the decrypted length is less than the declared
original size.  decrypt_file does (first conjunct), but recrypt_file does
not: its progress check compares the bytes read against the physical input
size, which always agree, so it happily re-encrypts the truncated file and
reproduces the oversized declared size in the output header (second and
third conjuncts). -/
theorem recrypt_file_truncated_not_detected :
    cryptfile.decrypt_file idCipher [] 2048 truncEncrypted =
        .error "Trying to decrypt a corrupt, truncated file" ∧
      cryptfile.recrypt_file idCipher [] [] (List.replicate 16 0) 2048 truncEncrypted =
        .ok truncEncrypted ∧
      cryptfile.struct_unpackQ (truncEncrypted.take 8) = 32 ∧
      (truncEncrypted.drop 24).length < 32 := by
  refine ⟨by rfl, by rfl, by decide, by decide⟩

namespace cryptfile

/-- The base64 alphabet with the altchars argument of the source: the 63rd
character is a minus sign instead of a slash. -/
def b64table : List Char :=
  ['A', 'B', 'C', 'D', 'E', 'F', 'G', 'H', 'I', 'J', 'K', 'L', 'M',
   'N', 'O', 'P', 'Q', 'R', 'S', 'T', 'U', 'V', 'W', 'X', 'Y', 'Z',
   'a', 'b', 'c', 'd', 'e', 'f', 'g', 'h', 'i', 'j', 'k', 'l', 'm',
   'n', 'o', 'p', 'q', 'r', 's', 't', 'u', 'v', 'w', 'x', 'y', 'z',
   '0', '1', '2', '3', '4', '5', '6', '7', '8', '9', '+', '-']

def sextetToChar (n : Nat) : Char := b64table.getD n 'A'

def charToSextet (c : Char) : Nat := b64table.indexOf c

/-- base64.b64encode with altchars: three input bytes become four alphabet
characters; a final quantum of one or two bytes is zero-filled and padded
with equals signs. -/
def b64encode : Bytes → List Char
  | x :: y :: z :: rest =>
    sextetToChar (x / 4) :: sextetToChar (x % 4 * 16 + y / 16) ::
      sextetToChar (y % 16 * 4 + z / 64) :: sextetToChar (z % 64) :: b64encode rest
  | [x, y] =>
    [sextetToChar (x / 4), sextetToChar (x % 4 * 16 + y / 16),
     sextetToChar (y % 16 * 4), '=']
  | [x] => [sextetToChar (x / 4), sextetToChar (x % 4 * 16), '=', '=']
  | [] => []

/-- base64.b64decode with altchars on well-formed input: four characters
become three bytes, equals signs shorten the final quantum. -/
def b64decode : List Char → Bytes
  | c1 :: c2 :: c3 :: c4 :: rest =>
    let s1 := charToSextet c1
    let s2 := charToSextet c2
    if c3 = '=' then [s1 * 4 + s2 / 16]
    else
      let s3 := charToSextet c3
      if c4 = '=' then [s1 * 4 + s2 / 16, s2 % 16 * 16 + s3 / 4]
      else
        (s1 * 4 + s2 / 16) :: (s2 % 16 * 16 + s3 / 4) ::
          (s3 % 4 * 64 + charToSextet c4) :: b64decode rest
  | _ => []

theorem charToSextet_sextetToChar : ∀ n < 64, charToSextet (sextetToChar n) = n := by
  decide

theorem sextetToChar_ne_eq : ∀ n < 64, sextetToChar n ≠ '=' := by
  decide

theorem b64decode_b64encode : ∀ (data : Bytes), ValidBytes data →
    b64decode (b64encode data) = data
  | [], _ => rfl
  | [x], hv => by
    have hx : x < 256 := hv x (by simp)
    simp only [b64encode, b64decode, if_pos rfl]
    rw [charToSextet_sextetToChar (x / 4) (by omega),
      charToSextet_sextetToChar (x % 4 * 16) (by omega)]
    refine congrArg₂ (· :: ·) (by omega) rfl
  | [x, y], hv => by
    have hx : x < 256 := hv x (by simp)
    have hy : y < 256 := hv y (by simp)
    simp only [b64encode, b64decode,
      if_neg (sextetToChar_ne_eq (y % 16 * 4) (by omega)), if_pos rfl]
    rw [charToSextet_sextetToChar (x / 4) (by omega),
      charToSextet_sextetToChar (x % 4 * 16 + y / 16) (by omega),
      charToSextet_sextetToChar (y % 16 * 4) (by omega)]
    refine congrArg₂ (· :: ·) (by omega) (congrArg₂ (· :: ·) (by omega) rfl)
  | x :: y :: z :: rest, hv => by
    have hx : x < 256 := hv x (by simp)
    have hy : y < 256 := hv y (by simp)
    have hz : z < 256 := hv z (by simp)
    have ih := b64decode_b64encode rest (fun u hu => hv u (by simp [hu]))
    simp only [b64encode, b64decode,
      if_neg (sextetToChar_ne_eq (y % 16 * 4 + z / 64) (by omega)),
      if_neg (sextetToChar_ne_eq (z % 64) (by omega))]
    rw [charToSextet_sextetToChar (x / 4) (by omega),
      charToSextet_sextetToChar (x % 4 * 16 + y / 16) (by omega),
      charToSextet_sextetToChar (y % 16 * 4 + z / 64) (by omega),
      charToSextet_sextetToChar (z % 64) (by omega), ih]
    refine congrArg₂ (· :: ·) (by omega) ?_
    refine congrArg₂ (· :: ·) (by omega) ?_
    exact congrArg₂ (· :: ·) (by omega) rfl

/-- PKCS7 padding to a 256-bit (32-byte) block: always appends k bytes of
value k, where k is between 1 and 32. -/
def pad (b : Bytes) : Bytes :=
  b ++ List.replicate (32 - b.length % 32) (32 - b.length % 32)

/-- PKCS7 unpadding for a 32-byte block size: the input must be a nonempty
multiple of 32 bytes whose last byte k (between 1 and 32) equals each of the
last k bytes; those k bytes are removed. -/
def unpad (b : Bytes) : Except String Bytes :=
  if b.length = 0 ∨ ¬ b.length % 32 = 0 then .error "ValueError: invalid padding"
  else
    let k := (b.getLast?).getD 0
    if 1 ≤ k ∧ k ≤ 32 ∧ b.drop (b.length - k) = List.replicate k k
    then .ok (b.take (b.length - k))
    else .error "ValueError: invalid padding"

theorem getLast?_replicate_succ (v : Nat) : ∀ (n : Nat),
    (List.replicate (n + 1) v).getLast? = some v
  | 0 => rfl
  | n + 1 => by
    rw [List.replicate_succ, List.replicate_succ, List.getLast?_cons_cons,
      ← List.replicate_succ]
    exact getLast?_replicate_succ v n

theorem unpad_pad (b : Bytes) : unpad (pad b) = .ok b := by
  have hk : 1 ≤ 32 - b.length % 32 ∧ 32 - b.length % 32 ≤ 32 := by omega
  have hlast : (pad b).getLast? = some (32 - b.length % 32) := by
    unfold pad
    obtain ⟨m, hm⟩ : ∃ m, 32 - b.length % 32 = m + 1 := ⟨31 - b.length % 32, by omega⟩
    rw [List.getLast?_append, hm, getLast?_replicate_succ]
    rfl
  have hne : ¬ ((pad b).length = 0 ∨ ¬ (pad b).length % 32 = 0) := by
    simp only [pad, List.length_append, List.length_replicate]
    omega
  have hlen2 : (pad b).length - (32 - b.length % 32) = b.length := by
    simp only [pad, List.length_append, List.length_replicate]
    omega
  have hdrop : (pad b).drop ((pad b).length - (32 - b.length % 32)) =
      List.replicate (32 - b.length % 32) (32 - b.length % 32) := by
    rw [hlen2]
    exact List.drop_left b _
  have htake : (pad b).take ((pad b).length - (32 - b.length % 32)) = b := by
    rw [hlen2]
    exact List.take_left b _
  unfold unpad
  rw [if_neg hne, hlast]
  simp only [Option.getD_some]
  rw [if_pos ⟨hk.1, hk.2, hdrop⟩, htake]

theorem validBytes_pad {b : Bytes} (hb : ValidBytes b) : ValidBytes (pad b) :=
  validBytes_append hb (validBytes_replicate _ _ (by omega))

theorem length_pad_dvd (b : Bytes) : 16 ∣ (pad b).length := by
  refine Nat.dvd_of_mod_eq_zero ?_
  simp only [pad, List.length_append, List.length_replicate]
  omega

/-- The module-level IV constant: 16 zero bytes. -/
def IV0 : Bytes := List.replicate 16 0

/-- encrypt_filename: pad the UTF-8 bytes of the name to a 32-byte block,
AES-CBC-encrypt them with the hashed key and the constant zero IV, and
base64-encode the ciphertext with the plus/minus alphabet.  The name is
represented by its UTF-8 byte sequence. -/
def encrypt_filename (C : BlockCipher) (hashed_key : Bytes) (filename : Bytes) : List Char :=
  b64encode (cbcEncUpd C hashed_key IV0 [] (pad filename)).1

/-- decrypt_filename: base64-decode, CBC-decrypt with the constant zero IV
(the source computes a local iv variable but passes the module constant to
the cipher), unpad. -/
def decrypt_filename (C : BlockCipher) (hashed_key : Bytes) (enc_filename : List Char) :
    Except String Bytes :=
  unpad (cbcDecUpd C hashed_key IV0 [] (b64decode enc_filename)).1

end cryptfile

/-- C2: for every key and every UTF-8 filename (represented by its byte
sequence), decrypt_filename inverts encrypt_filename: padding to a 32-byte
block, CBC encryption under the zero IV, and base64 encoding are exactly
undone by base64 decoding, CBC decryption and unpadding. -/
theorem decrypt_filename_encrypt_filename (C : BlockCipher) (key name : Bytes)
    (hG : C.Good key) (hname : ValidBytes name) :
    cryptfile.decrypt_filename C key (cryptfile.encrypt_filename C key name) =
      .ok name := by
  have hrt := cbcUpd_roundtrip C key hG (cryptfile.pad name) cryptfile.IV0
    (cryptfile.length_pad_dvd name) (by decide) (by decide)
    (cryptfile.validBytes_pad hname)
  unfold cryptfile.decrypt_filename cryptfile.encrypt_filename
  rw [cryptfile.b64decode_b64encode _ hrt.2.2.1, hrt.1, cryptfile.unpad_pad]

theorem decrypt_filename_encrypt_filename_witness :
    cryptfile.decrypt_filename idCipher [5] (cryptfile.encrypt_filename idCipher [5] [97, 98, 99]) =
      .ok [97, 98, 99] :=
  decrypt_filename_encrypt_filename idCipher [5] [97, 98, 99] (idCipher_good [5])
    (by decide)

namespace SyncDir

def CMP_IGNORE : Nat := 0
def CMP_CHANGED : Nat := 1
def CMP_NEWER : Nat := 2
def CMP_BIGGER : Nat := 3

/-- A stat tuple (atime, mtime, fsize) as used by the comparator;
times and sizes are rationals standing in for Python floats and ints. -/
structure StatInfo where
  atime : ℚ
  mtime : ℚ
  fsize : ℚ
deriving DecidableEq

/-- The size half of SyncDir._info_compare: reached only when the mtime half
did not already return True. -/
def size_part (sizecompare : Nat) (srcinfo dstinfo : StatInfo) : Bool :=
  if sizecompare = CMP_BIGGER then
    if srcinfo.fsize > dstinfo.fsize then true else false
  else if sizecompare = CMP_CHANGED then
    if srcinfo.fsize ≠ dstinfo.fsize then true else false
  else false

/-- SyncDir._info_compare: returns true when the source file should be
copied.  The mtime comparison can return True early; otherwise control
falls through to the size comparison. -/
def info_compare (mtcompare sizecompare : Nat) (srcinfo dstinfo : StatInfo) : Bool :=
  if mtcompare = CMP_NEWER then
    if srcinfo.mtime - dstinfo.mtime > 1 then true
    else size_part sizecompare srcinfo dstinfo
  else if mtcompare = CMP_CHANGED then
    if |srcinfo.mtime - dstinfo.mtime| > 1 then true
    else size_part sizecompare srcinfo dstinfo
  else size_part sizecompare srcinfo dstinfo

end SyncDir

/-- C3 counterexample: with mtime_mode NEWER and size_mode BIGGER, a source
file that is NOT newer (mtime 1000 against destination mtime 2000) but
bigger (size 100 against 5) IS scheduled for copy: the mtime test does not
veto the size test, it merely fails to return early, so the comparator falls
through to BIGGER and returns true, contradicting the claim that such a file
is not scheduled. -/
theorem info_compare_older_but_bigger_copied :
    SyncDir.info_compare SyncDir.CMP_NEWER SyncDir.CMP_BIGGER
      ⟨0, 1000, 100⟩ ⟨0, 2000, 5⟩ = true := by
  norm_num [SyncDir.info_compare, SyncDir.size_part]

/-- C3 (amended): with NEWER and BIGGER, a newer-but-smaller source is
copied (NEWER suffices on its own); a not-newer-but-bigger source is ALSO
copied (the size rule still applies when the mtime rule does not fire); a
source that is neither newer nor bigger is not copied. -/
theorem info_compare_newer_bigger_spec (s d : SyncDir.StatInfo) :
    (s.mtime - d.mtime > 1 →
      SyncDir.info_compare SyncDir.CMP_NEWER SyncDir.CMP_BIGGER s d = true) ∧
    (¬ s.mtime - d.mtime > 1 → s.fsize > d.fsize →
      SyncDir.info_compare SyncDir.CMP_NEWER SyncDir.CMP_BIGGER s d = true) ∧
    (¬ s.mtime - d.mtime > 1 → ¬ s.fsize > d.fsize →
      SyncDir.info_compare SyncDir.CMP_NEWER SyncDir.CMP_BIGGER s d = false) := by
  refine ⟨?_, ?_, ?_⟩
  · intro h
    unfold SyncDir.info_compare
    rw [if_pos rfl, if_pos h]
  · intro h1 h2
    unfold SyncDir.info_compare
    rw [if_pos rfl, if_neg h1]
    unfold SyncDir.size_part
    rw [if_pos rfl, if_pos h2]
  · intro h1 h2
    unfold SyncDir.info_compare
    rw [if_pos rfl, if_neg h1]
    unfold SyncDir.size_part
    rw [if_pos rfl, if_neg h2]

theorem info_compare_newer_bigger_spec_witness :
    SyncDir.info_compare SyncDir.CMP_NEWER SyncDir.CMP_BIGGER
      ⟨0, 2000, 5⟩ ⟨0, 1000, 100⟩ = true :=
  (info_compare_newer_bigger_spec ⟨0, 2000, 5⟩ ⟨0, 1000, 100⟩).1 (by norm_num)

/-- Substring membership on character lists: the semantics of the Python
in operator on strings. -/
def strContainsSub (needle : List Char) : List Char → Bool
  | [] => needle.isEmpty
  | c :: rest => needle.isPrefixOf (c :: rest) || strContainsSub needle rest

namespace server

/-- The server _checksafepath on a POSIX host (os.sep is the slash,
os.pardir is dot-dot, so the two replace calls are the identity): the path
is rejected when it contains a dot-dot substring, a question mark or an
asterisk, or starts with a slash or with dot-slash.  Returns true when the
path is accepted. -/
def checksafepath (fname : List Char) : Bool :=
  !(strContainsSub ['.', '.'] fname || fname.contains '?' || fname.contains '*' ||
    fname.take 1 == ['/'] || fname.take 2 == ['.', '/'])

/-- The list form of _checksafepath input: a list of path items is joined
with slashes before checking. -/
def checksafepath_items (items : List (List Char)) : Bool :=
  checksafepath (List.intercalate ['/'] items)

end server

namespace LocalFsProvider

/-- The unsafe-relative-path test of LocalFsProvider.get_localpath on a
POSIX host: rejects a path containing an os.pardir or os.curdir component or
whose first component is the separator itself.  Returns true when the path
is accepted.  Question marks and asterisks are NOT inspected here. -/
def get_localpath_safe (relpath : List String) : Bool :=
  !(relpath.contains ".." || relpath.contains "." ||
    (!relpath.isEmpty && relpath.head? == some "/"))

end LocalFsProvider

namespace server

/-- Whether a getinfo request is rejected before touching the filesystem:
the server checks only the root parameter with _checksafepath, and the
items are checked per-item by LocalFsProvider.get_localpath inside
getinfo. -/
def getinfo_request_rejected (root : List Char) (items : List (List String)) : Bool :=
  !(checksafepath root) || items.any (fun item => !(LocalFsProvider.get_localpath_safe item))

end server

/-- C5 counterexample: a getinfo item whose single component contains a
question mark passes both the get_localpath test and the whole getinfo
request filter (with a safe root), so the operation proceeds to stat the
filesystem instead of raising InvalidPath. -/
theorem getinfo_wildcard_item_not_rejected :
    LocalFsProvider.get_localpath_safe ["a?b"] = true ∧
      server.getinfo_request_rejected ['r'] [["a?b"]] = false := by decide

/-- C5 (amended): the server-side safe-path check (applied to the listdir
relpath, every backup part name, the restore fname and the getinfo root)
rejects every path containing a dot-dot substring, a question mark, an
asterisk or a leading separator; and the local get_localpath test (applied
to each getinfo item) rejects paths with a dot-dot component — but getinfo
items containing a question mark or an asterisk are not rejected. -/
theorem path_safety_spec :
    (∀ fname : List Char,
      (strContainsSub ['.', '.'] fname || fname.contains '?' || fname.contains '*' ||
        fname.take 1 == ['/']) = true →
      server.checksafepath fname = false) ∧
    (∀ relpath : List String, relpath.contains ".." = true →
      LocalFsProvider.get_localpath_safe relpath = false) := by
  constructor
  · intro fname h
    simp only [server.checksafepath, Bool.or_eq_true] at h ⊢
    simp only [Bool.not_eq_false', Bool.or_eq_true]
    tauto
  · intro relpath h
    simp only [LocalFsProvider.get_localpath_safe]
    simp only [Bool.not_eq_false', Bool.or_eq_true]
    tauto

theorem path_safety_spec_witness :
    server.checksafepath ['a', '?', 'b'] = false ∧
      LocalFsProvider.get_localpath_safe ["x", "..", "y"] = false :=
  ⟨path_safety_spec.1 ['a', '?', 'b'] (by decide),
   path_safety_spec.2 ["x", "..", "y"] (by decide)⟩

namespace FsEventReducer

/-- A relative path as stored in the pending event set (a tuple in the
source). -/
abbrev RPath := List String

/-- The parent-search loop of add_event: indices 0 up to and including the
length of the new path are tried; index idx corresponds to the prefix of the
first idx components (hence both the empty path and the path itself are
among the candidates). -/
def hasQueuedAncestor (events : Finset RPath) (relpath : RPath) : Bool :=
  (List.range (relpath.length + 1)).any (fun idx => decide (relpath.take idx ∈ events))

/-- FsEventReducer.add_event on the pending set: if an ancestor prefix (or
the path itself) is already queued the set is unchanged; otherwise the path
is added and every queued strictly longer path extending it is removed. -/
def add_event (events : Finset RPath) (relpath : RPath) : Finset RPath :=
  if hasQueuedAncestor events relpath then events
  else (insert relpath events).filter
    (fun e => ¬ (relpath.length < e.length ∧ e.take relpath.length = relpath))

/-- No element of the pending set is a proper prefix of another element. -/
def Collapsed (S : Finset RPath) : Prop :=
  ∀ a ∈ S, ∀ b ∈ S, a <+: b → a = b

theorem hasQueuedAncestor_iff (events : Finset RPath) (r : RPath) :
    hasQueuedAncestor events r = true ↔ ∃ a ∈ events, a <+: r := by
  unfold hasQueuedAncestor
  rw [List.any_eq_true]
  constructor
  · rintro ⟨idx, _, h⟩
    exact ⟨r.take idx, of_decide_eq_true h, ⟨r.drop idx, List.take_append_drop idx r⟩⟩
  · rintro ⟨a, ha, hpre⟩
    refine ⟨a.length, List.mem_range.2 ?_, decide_eq_true ?_⟩
    · have := hpre.length_le
      omega
    · rw [← List.prefix_iff_eq_take.1 hpre]
      exact ha

theorem add_event_ancestor (events : Finset RPath) (r : RPath)
    (h : ∃ a ∈ events, a <+: r) : add_event events r = events := by
  unfold add_event
  rw [if_pos ((hasQueuedAncestor_iff events r).2 h)]

theorem add_event_fresh (events : Finset RPath) (r : RPath)
    (h : ¬ ∃ a ∈ events, a <+: r) :
    add_event events r =
      insert r (events.filter (fun e => ¬ (r <+: e ∧ r ≠ e))) := by
  unfold add_event
  rw [if_neg (by rw [hasQueuedAncestor_iff]; exact h)]
  ext e
  simp only [Finset.mem_filter, Finset.mem_insert]
  constructor
  · rintro ⟨he, hcond⟩
    rcases he with rfl | he
    · exact Or.inl rfl
    · refine Or.inr ⟨he, ?_⟩
      rintro ⟨hpre, hne⟩
      refine hcond ⟨?_, (List.prefix_iff_eq_take.1 hpre).symm⟩
      rcases Nat.lt_or_ge r.length e.length with hlt | hge
      · exact hlt
      · exact absurd (hpre.eq_of_length_le hge) hne
  · rintro (rfl | ⟨he, hne⟩)
    · refine ⟨Or.inl rfl, ?_⟩
      rintro ⟨hlt, _⟩
      omega
    · refine ⟨Or.inr he, ?_⟩
      rintro ⟨hlt, htake⟩
      refine hne ⟨?_, ?_⟩
      · rw [List.prefix_iff_eq_take]
        exact htake.symm
      · intro hre
        rw [hre] at hlt
        omega

theorem add_event_collapsed (events : Finset RPath) (r : RPath)
    (hC : Collapsed events) : Collapsed (add_event events r) := by
  by_cases h : ∃ a ∈ events, a <+: r
  · rw [add_event_ancestor events r h]
    exact hC
  · rw [add_event_fresh events r h]
    intro a ha b hb hpre
    simp only [Finset.mem_insert, Finset.mem_filter] at ha hb
    rcases ha with rfl | ⟨ha, hanot⟩
    · rcases hb with rfl | ⟨hb, hbnot⟩
      · rfl
      · by_contra hne
        exact hbnot ⟨hpre, hne⟩
    · rcases hb with rfl | ⟨hb, _⟩
      · exact absurd ⟨a, ha, hpre⟩ h
      · exact hC a ha b hb hpre

theorem add_event_collapse_pair (A B : RPath) (hB : B ≠ []) :
    add_event (add_event ∅ A) (A ++ B) = {A} ∧
      add_event (add_event ∅ (A ++ B)) A = {A} := by
  have h0 : ∀ r : RPath, add_event ∅ r = {r} := by
    intro r
    rw [add_event_fresh ∅ r (by simp)]
    simp
  constructor
  · rw [h0 A, add_event_ancestor {A} (A ++ B) ⟨A, by simp, by simp⟩]
  · rw [h0 (A ++ B), add_event_fresh {A ++ B} A]
    · ext e
      simp only [Finset.mem_insert, Finset.mem_filter, Finset.mem_singleton]
      constructor
      · rintro (rfl | ⟨rfl, hnot⟩)
        · rfl
        · exact absurd ⟨⟨B, rfl⟩, by simpa using hB⟩ hnot
      · rintro rfl
        exact Or.inl rfl
    · rintro ⟨a, ha, hpre⟩
      rw [Finset.mem_singleton] at ha
      subst ha
      have := hpre.length_le
      simp only [List.length_append] at this
      have hBlen : 0 < B.length := List.length_pos.2 hB
      omega

end FsEventReducer

/-- C6: the pending set of the event reducer obeys parent-subsumption.
Adding a path one of whose prefixes (ancestor or the path itself) is queued
leaves the set unchanged; adding a fresh path inserts it and discards all
queued proper descendants; add_event(A) then add_event(A/B) in either order
leaves exactly A queued; the set never contains two paths of which one is
a proper prefix of the other — the property is preserved by every add and
holds for every add_event history starting from the empty set. -/
theorem add_event_spec :
    (∀ (events : Finset FsEventReducer.RPath) (r : FsEventReducer.RPath),
      (∃ a ∈ events, a <+: r) → FsEventReducer.add_event events r = events) ∧
    (∀ (events : Finset FsEventReducer.RPath) (r : FsEventReducer.RPath),
      ¬ (∃ a ∈ events, a <+: r) →
      FsEventReducer.add_event events r =
        insert r (events.filter (fun e => ¬ (r <+: e ∧ r ≠ e)))) ∧
    (∀ A B : FsEventReducer.RPath, B ≠ [] →
      FsEventReducer.add_event (FsEventReducer.add_event ∅ A) (A ++ B) = {A} ∧
        FsEventReducer.add_event (FsEventReducer.add_event ∅ (A ++ B)) A = {A}) ∧
    (∀ (events : Finset FsEventReducer.RPath) (r : FsEventReducer.RPath),
      FsEventReducer.Collapsed events →
        FsEventReducer.Collapsed (FsEventReducer.add_event events r)) ∧
    (∀ rs : List FsEventReducer.RPath,
      FsEventReducer.Collapsed (rs.foldl FsEventReducer.add_event ∅)) := by
  refine ⟨FsEventReducer.add_event_ancestor, FsEventReducer.add_event_fresh,
    FsEventReducer.add_event_collapse_pair, FsEventReducer.add_event_collapsed, ?_⟩
  intro rs
  have hgen : ∀ (S : Finset FsEventReducer.RPath), FsEventReducer.Collapsed S →
      FsEventReducer.Collapsed (rs.foldl FsEventReducer.add_event S) := by
    induction rs with
    | nil => intro S hS; exact hS
    | cons r rest ih =>
      intro S hS
      exact ih _ (FsEventReducer.add_event_collapsed S r hS)
  exact hgen ∅ (by intro a ha; simp at ha)

theorem add_event_spec_witness :
    FsEventReducer.add_event (FsEventReducer.add_event ∅ ["a"]) ["a", "b"] = {["a"]} ∧
      FsEventReducer.add_event (FsEventReducer.add_event ∅ ["a", "b"]) ["a"] = {["a"]} :=
  add_event_spec.2.2.1 ["a"] ["b"] (by decide)

namespace EventListener

/-- A record of the server-side observer table: expiry time, listened root
and buffered events; an event is (eventRoot, eventType, eventUid). -/
structure Observer where
  expires : ℚ
  root : List Char
  events : List (List Char × Nat × List Char)
deriving DecidableEq

/-- The observer table, keyed by the observer uid. -/
abbrev ObsState := List (Nat × Observer)

/-- EventListener.addObserver: registers a fresh uid with expiry
now + 2·ttl, the given root and no buffered events. -/
def addObserver (now ttl : ℚ) (uid : Nat) (root : List Char) (st : ObsState) : ObsState :=
  st ++ [(uid, ⟨now + 2 * ttl, root, []⟩)]

/-- EventListener.notify: deletes every observer whose expiry has passed;
appends the event to every remaining observer whose root is a prefix of the
event root. -/
def notify (now : ℚ) (eventRoot : List Char) (eventType : Nat) (eventUid : List Char)
    (st : ObsState) : ObsState :=
  st.filterMap (fun q =>
    if q.2.expires < now then none
    else if q.2.root.isPrefixOf eventRoot then
      some (q.1, ⟨q.2.expires, q.2.root, q.2.events ++ [(eventRoot, eventType, eventUid)]⟩)
    else some q)

/-- EventListener.getEvents (the pollchanges core): unknown uids are
rejected; an observer polled more than 2·ttl after its expiry is deleted and
the poll rejected; otherwise the expiry is renewed to now + ttl and the
buffered events (possibly none) are returned and cleared. -/
def getEvents (now ttl : ℚ) (uid : Nat) (st : ObsState) :
    Except String (List (List Char × Nat × List Char)) × ObsState :=
  match st.find? (fun q => q.1 == uid) with
  | none => (.error "404: Invalid event notification request.", st)
  | some p =>
    if now > p.2.expires + 2 * ttl then
      (.error "404: Invalid event notification request.", st.filter (fun q => q.1 ≠ uid))
    else
      if p.2.events ≠ [] then
        (.ok p.2.events,
         st.map (fun q => if q.1 = uid then (q.1, ⟨now + ttl, q.2.root, []⟩) else q))
      else
        (.ok [],
         st.map (fun q => if q.1 = uid then (q.1, ⟨now + ttl, q.2.root, q.2.events⟩) else q))

end EventListener

/-- C9 counterexample: an observer registered with expiry 0 is polled at
time 1 with ttl 1 — its expiry has passed, yet the poll is NOT rejected:
it returns an empty event list and renews the observer to expiry 2, because
getEvents only deletes an observer when the poll arrives more than 2·ttl
after its expiry. -/
theorem getEvents_past_expiry_not_removed :
    (EventListener.getEvents 1 1 0 [(0, ⟨0, ['r'], []⟩)]).1 = .ok [] ∧
      (EventListener.getEvents 1 1 0 [(0, ⟨0, ['r'], []⟩)]).2 =
        [(0, ⟨1 + 1, ['r'], []⟩)] ∧
      (0 : ℚ) < 1 := by
  refine ⟨?_, ?_, by norm_num⟩ <;>
    · unfold EventListener.getEvents
      norm_num [List.find?]

/-- C9 (amended): listenchanges registers an observer with expiry
now + 2·TTL; a poll on a registered observer made no later than 2·TTL after
its expiry succeeds, returns and clears the buffered events, and renews the
expiry to now + TTL (in particular an observer merely past expiry is renewed
rather than rejected); notify garbage-collects every observer whose expiry
has passed; a poll arriving more than 2·TTL after the expiry is rejected and
removes the observer. -/
theorem event_listener_lifecycle :
    (∀ (now ttl : ℚ) (uid : Nat) (root : List Char) (st : EventListener.ObsState),
      (∀ q ∈ st, q.1 ≠ uid) →
      (EventListener.addObserver now ttl uid root st).find? (fun q => q.1 == uid) =
        some (uid, ⟨now + 2 * ttl, root, []⟩)) ∧
    (∀ (now ttl : ℚ) (uid : Nat) (st : EventListener.ObsState) (p : Nat × EventListener.Observer),
      (st.map Prod.fst).Nodup →
      st.find? (fun q => q.1 == uid) = some p →
      ¬ now > p.2.expires + 2 * ttl →
      (EventListener.getEvents now ttl uid st).1 = .ok p.2.events ∧
        ∀ q ∈ (EventListener.getEvents now ttl uid st).2, q.1 = uid →
          q.2.expires = now + ttl ∧ q.2.events = []) ∧
    (∀ (now : ℚ) (er : List Char) (et : Nat) (eu : List Char) (st : EventListener.ObsState),
      ∀ q ∈ EventListener.notify now er et eu st, ¬ q.2.expires < now) ∧
    (∀ (now ttl : ℚ) (uid : Nat) (st : EventListener.ObsState) (p : Nat × EventListener.Observer),
      st.find? (fun q => q.1 == uid) = some p →
      now > p.2.expires + 2 * ttl →
      (EventListener.getEvents now ttl uid st).1 =
          .error "404: Invalid event notification request." ∧
        ∀ q ∈ (EventListener.getEvents now ttl uid st).2, q.1 ≠ uid) := by
  refine ⟨?_, ?_, ?_, ?_⟩
  · intro now ttl uid root st hfresh
    unfold EventListener.addObserver
    rw [List.find?_append]
    have hnone : st.find? (fun q => q.1 == uid) = none := by
      rw [List.find?_eq_none]
      intro q hq
      simpa using hfresh q hq
    rw [hnone]
    simp
  · intro now ttl uid st p hnodup hfind hgrace
    have hp_mem : p ∈ st := List.mem_of_find?_eq_some hfind
    have hpuid : p.1 = uid := by
      have := List.find?_some hfind
      simpa using this
    unfold EventListener.getEvents
    rw [hfind]
    dsimp only
    rw [if_neg hgrace]
    constructor
    · by_cases hev : p.2.events ≠ []
      · rw [if_pos hev]
      · rw [if_neg hev]
        push_neg at hev
        rw [hev]
    · intro q hq hquid
      by_cases hev : p.2.events ≠ []
      · rw [if_pos hev] at hq
        simp only [List.mem_map] at hq
        obtain ⟨q0, hq0mem, hq0⟩ := hq
        by_cases h0 : q0.1 = uid
        · rw [if_pos h0] at hq0
          rw [← hq0]
          exact ⟨rfl, rfl⟩
        · rw [if_neg h0] at hq0
          rw [← hq0] at hquid
          exact absurd hquid h0
      · rw [if_neg hev] at hq
        push_neg at hev
        simp only [List.mem_map] at hq
        obtain ⟨q0, hq0mem, hq0⟩ := hq
        by_cases h0 : q0.1 = uid
        · rw [if_pos h0] at hq0
          have hq0p : q0 = p :=
            List.inj_on_of_nodup_map hnodup hq0mem hp_mem (by rw [h0, hpuid])
          rw [← hq0]
          refine ⟨rfl, ?_⟩
          dsimp only
          rw [hq0p, hev]
        · rw [if_neg h0] at hq0
          rw [← hq0] at hquid
          exact absurd hquid h0
  · intro now er et eu st q hq
    unfold EventListener.notify at hq
    simp only [List.mem_filterMap] at hq
    obtain ⟨q0, _, hq0⟩ := hq
    by_cases hexp : q0.2.expires < now
    · rw [if_pos hexp] at hq0
      exact absurd hq0 (by simp)
    · rw [if_neg hexp] at hq0
      by_cases hpre : q0.2.root.isPrefixOf er
      · rw [if_pos hpre] at hq0
        have hqe : (q0.1, (⟨q0.2.expires, q0.2.root,
            q0.2.events ++ [(er, et, eu)]⟩ : EventListener.Observer)) = q :=
          Option.some_inj.1 hq0
        rw [← hqe]
        exact hexp
      · rw [if_neg hpre] at hq0
        rw [← Option.some_inj.1 hq0]
        exact hexp
  · intro now ttl uid st p hfind hpast
    unfold EventListener.getEvents
    rw [hfind]
    dsimp only
    rw [if_pos hpast]
    refine ⟨rfl, ?_⟩
    intro q hq
    simp only [List.mem_filter] at hq
    simpa using hq.2

theorem event_listener_lifecycle_witness :
    (EventListener.addObserver 0 1 7 ['x'] []).find? (fun q => q.1 == 7) =
      some (7, ⟨0 + 2 * 1, ['x'], []⟩) ∧
      (EventListener.getEvents 3 1 5 [(5, ⟨10, ['r'], [(['e'], 2, ['u'])]⟩)]).1 =
        .ok [(['e'], 2, ['u'])] :=
  ⟨event_listener_lifecycle.1 0 1 7 ['x'] [] (by simp),
   (event_listener_lifecycle.2.1 3 1 5 [(5, ⟨10, ['r'], [(['e'], 2, ['u'])]⟩)]
      (5, ⟨10, ['r'], [(['e'], 2, ['u'])]⟩) (by decide) (by rfl) (by norm_num)).1⟩

namespace LocalFsProvider

/-- A node of the local filesystem: a regular file with its contents or a
directory with its access and modification time. -/
inductive FNode where
  | file (data : Bytes)
  | dir (atime mtime : ℚ)
deriving DecidableEq

/-- A flat view of the local filesystem: a finite association of absolute
paths (component lists) to nodes. -/
abbrev Fs := List (List String × FNode)

def lookupFs (fs : Fs) (p : List String) : Option FNode :=
  (fs.find? (fun e => e.1 == p)).map (fun e => e.2)

def isfile (fs : Fs) (p : List String) : Bool :=
  match lookupFs fs p with
  | some (.file _) => true
  | _ => false

def isdir (fs : Fs) (p : List String) : Bool :=
  match lookupFs fs p with
  | some (.dir _ _) => true
  | _ => false

/-- LocalFsProvider._remove: unlink a regular file, recursively delete a
directory with everything below it, do nothing when the path is absent. -/
def remove_node (fs : Fs) (p : List String) : Fs :=
  if isfile fs p then fs.filter (fun e => !(e.1 == p))
  else if isdir fs p then fs.filter (fun e => !(p.isPrefixOf e.1))
  else fs

/-- The DIRECTORY branch of LocalFsProvider.receivechanges: remove whatever
is at the target path, create a fresh directory (mkdir stamps it with the
current clock, passed here as ctimes) and then restore the transmitted
atime and mtime with utime. -/
def apply_directory (fs : Fs) (p : List String) (atime mtime : ℚ) (ctimes : ℚ × ℚ) : Fs :=
  let fs1 := remove_node fs p
  let fs2 := fs1 ++ [(p, FNode.dir ctimes.1 ctimes.2)]
  fs2.map (fun e => if e.1 == p then (e.1, FNode.dir atime mtime) else e)

/-- Well-formedness of the flat filesystem view: every proper prefix of a
present path is itself present as a directory. -/
def WfFs (fs : Fs) : Prop :=
  ∀ e ∈ fs, ∀ k, k < e.1.length → isdir fs (e.1.take k) = true

instance : DecidablePred WfFs := fun fs => by
  unfold WfFs
  infer_instance

theorem find?_map_keyfix {β : Type} (q : List String) (g : (List String × β) → (List String × β))
    (hg : ∀ e, (g e).1 = e.1) :
    ∀ l : List (List String × β),
      (l.map g).find? (fun e => e.1 == q) = (l.find? (fun e => e.1 == q)).map g
  | [] => rfl
  | e :: rest => by
    by_cases he : e.1 = q
    · rw [List.map_cons, List.find?_cons_of_pos _ (by simp [hg e, he]),
        List.find?_cons_of_pos _ (by simpa using he)]
      rfl
    · rw [List.map_cons, List.find?_cons_of_neg _ (by simp [hg e, he]),
        List.find?_cons_of_neg _ (by simpa using he)]
      exact find?_map_keyfix q g hg rest

theorem remove_node_no_target (fs : Fs) (p : List String) (hwf : WfFs fs) :
    ∀ q : List String, p <+: q →
      (remove_node fs p).find? (fun e => e.1 == q) = none := by
  intro q hpre
  unfold remove_node
  by_cases hf : isfile fs p
  · rw [if_pos hf]
    rw [List.find?_eq_none]
    intro e he
    simp only [List.mem_filter] at he
    by_contra hbeq
    have heq : e.1 = q := by simpa using hbeq
    by_cases hqp : q = p
    · rw [heq, hqp] at he
      simp at he
    · have hlt : p.length < q.length := by
        have hle := hpre.length_le
        rcases Nat.lt_or_ge p.length q.length with h | h
        · exact h
        · exact absurd (hpre.eq_of_length_le h) (fun hh => hqp hh.symm)
      have hdir := hwf e he.1 p.length (by rw [heq]; exact hlt)
      rw [heq, ← List.prefix_iff_eq_take.1 hpre] at hdir
      unfold isdir at hdir
      unfold isfile at hf
      rcases hlk : lookupFs fs p with _ | node
      · rw [hlk] at hdir; simp at hdir
      · rw [hlk] at hdir hf
        cases node <;> simp_all
  · rw [if_neg hf]
    by_cases hd : isdir fs p
    · rw [if_pos hd]
      rw [List.find?_eq_none]
      intro e he
      simp only [List.mem_filter] at he
      by_contra hbeq
      have heq : e.1 = q := by simpa using hbeq
      have : p.isPrefixOf e.1 = true := by
        rw [heq]
        exact Iff.mpr List.isPrefixOf_iff_prefix hpre
      rw [this] at he
      simp at he
    · rw [if_neg hd]
      rw [List.find?_eq_none]
      intro e he
      by_contra hbeq
      have heq : e.1 = q := by simpa using hbeq
      have hnone : lookupFs fs p = none := by
        unfold isfile at hf
        unfold isdir at hd
        rcases hlk : lookupFs fs p with _ | node
        · rfl
        · rw [hlk] at hf hd
          cases node <;> simp_all
      by_cases hqp : q = p
      · rw [hqp] at heq
        have : (fs.find? (fun e => e.1 == p)) = none := by
          rw [lookupFs, Option.map_eq_none'] at hnone
          exact hnone
        have := List.find?_eq_none.1 this e he
        rw [heq] at this
        simp at this
      · have hlt : p.length < q.length := by
          have hle := hpre.length_le
          rcases Nat.lt_or_ge p.length q.length with h | h
          · exact h
          · exact absurd (hpre.eq_of_length_le h) (fun hh => hqp hh.symm)
        have hdir := hwf e he p.length (by rw [heq]; exact hlt)
        rw [heq, ← List.prefix_iff_eq_take.1 hpre] at hdir
        unfold isdir at hdir
        rw [hnone] at hdir
        simp at hdir

end LocalFsProvider

/-- C10: applying a DIRECTORY change record first removes whatever exists at
the target path (a file is unlinked; a directory is deleted recursively with
all of its contents) and only then creates a fresh directory carrying the
transmitted atime and mtime: afterwards the target path holds exactly that
fresh directory and no proper descendant of the target path exists, so a
pre-existing directory tree never survives the record. -/
theorem apply_directory_spec (fs : LocalFsProvider.Fs) (p : List String)
    (atime mtime : ℚ) (ct : ℚ × ℚ) (hwf : LocalFsProvider.WfFs fs) :
    LocalFsProvider.lookupFs (LocalFsProvider.apply_directory fs p atime mtime ct) p =
        some (LocalFsProvider.FNode.dir atime mtime) ∧
      ∀ q : List String, p <+: q → p ≠ q →
        LocalFsProvider.lookupFs (LocalFsProvider.apply_directory fs p atime mtime ct) q =
          none := by
  have hg : ∀ e : List String × LocalFsProvider.FNode,
      ((fun e => if e.1 == p then (e.1, LocalFsProvider.FNode.dir atime mtime) else e) e).1 =
        e.1 := by
    intro e
    dsimp only
    by_cases h : e.1 = p
    · rw [if_pos (by simpa using h)]
    · rw [if_neg (by simpa using h)]
  constructor
  · unfold LocalFsProvider.apply_directory LocalFsProvider.lookupFs
    rw [LocalFsProvider.find?_map_keyfix p _ hg]
    rw [List.find?_append,
      LocalFsProvider.remove_node_no_target fs p hwf p (List.prefix_refl p)]
    simp
  · intro q hpre hne
    unfold LocalFsProvider.apply_directory LocalFsProvider.lookupFs
    rw [LocalFsProvider.find?_map_keyfix q _ hg]
    rw [List.find?_append,
      LocalFsProvider.remove_node_no_target fs p hwf q hpre]
    have : ((p, LocalFsProvider.FNode.dir ct.1 ct.2).1 == q) = false := by
      simpa using hne
    simp [List.find?, this]

theorem apply_directory_spec_witness :
    LocalFsProvider.lookupFs
        (LocalFsProvider.apply_directory
          [([], LocalFsProvider.FNode.dir 0 0), (["a"], LocalFsProvider.FNode.dir 1 2),
           (["a", "b"], LocalFsProvider.FNode.file [1])]
          ["a"] 5 6 (9, 9)) ["a"] = some (LocalFsProvider.FNode.dir 5 6) ∧
      LocalFsProvider.lookupFs
        (LocalFsProvider.apply_directory
          [([], LocalFsProvider.FNode.dir 0 0), (["a"], LocalFsProvider.FNode.dir 1 2),
           (["a", "b"], LocalFsProvider.FNode.file [1])]
          ["a"] 5 6 (9, 9)) ["a", "b"] = none :=
  ⟨(apply_directory_spec _ ["a"] 5 6 (9, 9) (by decide)).1,
   (apply_directory_spec _ ["a"] 5 6 (9, 9) (by decide)).2 ["a", "b"]
     ⟨["b"], rfl⟩ (by decide)⟩

/-- A snapshot of the backing tree of a provider: files carry times and
contents, directories carry times and named children. -/
inductive FsEntry where
  | file (atime mtime : ℚ) (data : Bytes)
  | dir (atime mtime : ℚ) (children : List (String × FsEntry))

def FsEntry.lookup : FsEntry → List String → Option FsEntry
  | e, [] => some e
  | .file _ _ _, _ :: _ => none
  | .dir _ _ children, name :: rest =>
    match children.find? (fun c => c.1 == name) with
    | none => none
    | some c => FsEntry.lookup c.2 rest

/-- os.stat through the provider: atime, mtime and size (the size of a
directory is reported as zero; it is never used). -/
def statOf (fs : FsEntry) (p : List String) : Except String (ℚ × ℚ × ℚ) :=
  match fs.lookup p with
  | some (.file atime mtime data) => .ok (atime, mtime, (data.length : ℚ))
  | some (.dir atime mtime _) => .ok (atime, mtime, 0)
  | none => .error "FileNotFoundError"

/-- listdir through the provider: directory names and file names of the
children, in listing order; raises EInvalidPath when the path is not a
directory. -/
def listdirOf (fs : FsEntry) (p : List String) : Except String (List String × List String) :=
  match fs.lookup p with
  | some (.dir _ _ children) =>
    .ok (children.filterMap (fun c => match c.2 with | .dir _ _ _ => some c.1 | _ => none),
         children.filterMap (fun c => match c.2 with | .file _ _ _ => some c.1 | _ => none))
  | _ => .error "EInvalidPath: directory does not exist"

/-- A change record of the synchronization stream. -/
inductive Change where
  | delete (path : String)
  | directory (path : String) (atime mtime : ℚ)
  | file (path : String) (atime mtime fsize : ℚ) (fpath : String) (owner : Nat)
deriving DecidableEq

def SENDER : Nat := 0
def RECEIVER : Nat := 1

/-- Wire form of a relative path: components joined by slashes. -/
def joinPath (p : List String) : String := String.intercalate "/" p

/-- The _prefixed helper: prepend the relative path to each listed name. -/
def prefixed (relpath : List String) (items : List String) : List (List String) :=
  items.map (fun item => relpath ++ [item])

/-- Sequential effectful mapping in the Except monad: the loop shape of the
source generators (the first failure aborts the whole stream). -/
def mapME {α β : Type} (f : α → Except String β) : List α → Except String (List β)
  | [] => .ok []
  | a :: rest => do
    let b ← f a
    let bs ← mapME f rest
    .ok (b :: bs)

theorem except_bind_ok {α β : Type} {ma : Except String α} {f : α → Except String β} {b : β}
    (h : (ma >>= f) = .ok b) : ∃ a, ma = .ok a ∧ f a = .ok b := by
  cases ma with
  | error e => exact absurd h (by simp [Bind.bind, Except.bind])
  | ok a => exact ⟨a, rfl, h⟩

theorem mapME_ok_mem {α β : Type} (f : α → Except String β) :
    ∀ (l : List α) (r : List β), mapME f l = .ok r →
      ∀ y ∈ r, ∃ x ∈ l, f x = .ok y
  | [], r, h => by
    unfold mapME at h
    cases h
    intro y hy
    simp at hy
  | a :: rest, r, h => by
    unfold mapME at h
    obtain ⟨b, hb, h2⟩ := except_bind_ok h
    obtain ⟨bs, hbs, h3⟩ := except_bind_ok h2
    cases h3
    intro y hy
    rcases List.mem_cons.1 hy with rfl | hy
    · exact ⟨a, by simp, hb⟩
    · obtain ⟨x, hx, hfx⟩ := mapME_ok_mem f rest bs hbs y hy
      exact ⟨x, by simp [hx], hfx⟩

theorem mapME_ok_length {α β : Type} (f : α → Except String β) :
    ∀ (l : List α) (r : List β), mapME f l = .ok r → r.length = l.length
  | [], r, h => by
    unfold mapME at h
    cases h
    rfl
  | a :: rest, r, h => by
    unfold mapME at h
    obtain ⟨b, hb, h2⟩ := except_bind_ok h
    obtain ⟨bs, hbs, h3⟩ := except_bind_ok h2
    cases h3
    simp [mapME_ok_length f rest bs hbs]

namespace LocalFsProvider

/-- Local path of a relative path below the provider root (POSIX join). -/
def localpath (root : String) (relpath : List String) : String :=
  String.intercalate "/" (root :: relpath)

/-- LocalFsProvider.sendchanges: first a DELETE record for every element of
delet; then, for every directory in dcopy, a DIRECTORY record followed by
the full recursive content obtained by re-issuing sendchanges with no
deletes and the prefixed child names; finally a FILE record (ownership
SENDER, body at its natural local path) for every element of fcopy.  The
generator is modelled as the list of all yielded records; the first raised
error aborts the whole stream.  The fuel bounds the recursion depth. -/
def sendchanges (fs : FsEntry) (root : String) :
    Nat → List (List String) → List (List String) → List (List String) →
      Except String (List Change)
  | 0, _, _, _ => .error "RecursionError: maximum recursion depth exceeded"
  | fuel + 1, delet, dcopy, fcopy => do
    let dirSegs ← mapME (fun dpath => do
      let st ← statOf fs dpath
      let ls ← listdirOf fs dpath
      let sub ← sendchanges fs root fuel [] (prefixed dpath ls.1) (prefixed dpath ls.2)
      Except.ok (Change.directory (joinPath dpath) st.1 st.2.1 :: sub)) dcopy
    let fileRecs ← mapME (fun fpath => do
      let st ← statOf fs fpath
      Except.ok (Change.file (joinPath fpath) st.1 st.2.1 st.2.2
        (localpath root fpath) SENDER)) fcopy
    Except.ok (delet.map (fun dpath => Change.delete (joinPath dpath)) ++
      dirSegs.flatten ++ fileRecs)

/-- The stream segment a single dcopy directory contributes: its DIRECTORY
record immediately followed by its entire recursive content, produced by
recursively issuing sendchanges([], subdirs, subfiles). -/
def dirSegment (fs : FsEntry) (root : String) (fuel : Nat) (dpath : List String) :
    Except String (List Change) := do
  let st ← statOf fs dpath
  let ls ← listdirOf fs dpath
  let sub ← sendchanges fs root fuel [] (prefixed dpath ls.1) (prefixed dpath ls.2)
  Except.ok (Change.directory (joinPath dpath) st.1 st.2.1 :: sub)

/-- The FILE record a single fcopy element contributes. -/
def fileRecord (fs : FsEntry) (root : String) (fpath : List String) :
    Except String Change := do
  let st ← statOf fs fpath
  Except.ok (Change.file (joinPath fpath) st.1 st.2.1 st.2.2
    (localpath root fpath) SENDER)

end LocalFsProvider

namespace BlindFsProvider

/-- BlindFsProvider.sendchanges: DELETE records first; then one getinfo RPC
for the whole dcopy list, after which every directory contributes its
DIRECTORY record immediately followed by its recursive content (listdir RPC
plus a recursive sendchanges with no deletes); then one getinfo RPC for
fcopy, after which each file body is downloaded into a temp file (named by
the tmp parameter, standing for create_tmp_file_for) and yielded as a FILE
record owned by the RECEIVER. -/
def sendchanges (fs : FsEntry) (tmp : List String → String) :
    Nat → List (List String) → List (List String) → List (List String) →
      Except String (List Change)
  | 0, _, _, _ => .error "RecursionError: maximum recursion depth exceeded"
  | fuel + 1, delet, dcopy, fcopy => do
    let dinfos ← mapME (statOf fs) dcopy
    let dirSegs ← mapME (fun pr : List String × (ℚ × ℚ × ℚ) => do
      let ls ← listdirOf fs pr.1
      let sub ← sendchanges fs tmp fuel [] (prefixed pr.1 ls.1) (prefixed pr.1 ls.2)
      Except.ok (Change.directory (joinPath pr.1) pr.2.1 pr.2.2.1 :: sub)) (dcopy.zip dinfos)
    let finfos ← mapME (statOf fs) fcopy
    Except.ok (delet.map (fun dpath => Change.delete (joinPath dpath)) ++
      dirSegs.flatten ++
      (fcopy.zip finfos).map (fun pr =>
        Change.file (joinPath pr.1) pr.2.1 pr.2.2.1 pr.2.2.2 (tmp pr.1) RECEIVER))

/-- The stream segment one dcopy directory contributes in the remote
provider (its stat tuple was fetched by the batched getinfo call). -/
def dirSegment (fs : FsEntry) (tmp : List String → String) (fuel : Nat)
    (pr : List String × (ℚ × ℚ × ℚ)) : Except String (List Change) := do
  let ls ← listdirOf fs pr.1
  let sub ← sendchanges fs tmp fuel [] (prefixed pr.1 ls.1) (prefixed pr.1 ls.2)
  Except.ok (Change.directory (joinPath pr.1) pr.2.1 pr.2.2.1 :: sub)

end BlindFsProvider

/-- C4: the change stream of sendchanges(delet, dcopy, fcopy) is ordered as
one DELETE record per element of delet first, then one segment per element
of dcopy — a DIRECTORY record immediately followed by the entire recursive
content of that directory, produced by recursively issuing sendchanges with
no deletes and the prefixed child listings — and finally the FILE records
for fcopy.  The first conjunct settles the local provider, the second the
remote provider (whose stat tuples come from batched getinfo calls and
whose file bodies are downloaded to RECEIVER-owned temp files). -/
theorem sendchanges_stream_order :
    (∀ (fs : FsEntry) (root : String) (fuel : Nat)
      (delet dcopy fcopy : List (List String)) (cs : List Change),
      LocalFsProvider.sendchanges fs root (fuel + 1) delet dcopy fcopy = .ok cs →
      ∃ (dirSegs : List (List Change)) (fileRecs : List Change),
        mapME (LocalFsProvider.dirSegment fs root fuel) dcopy = .ok dirSegs ∧
        mapME (LocalFsProvider.fileRecord fs root) fcopy = .ok fileRecs ∧
        cs = delet.map (fun d => Change.delete (joinPath d)) ++
          dirSegs.flatten ++ fileRecs ∧
        cs.take delet.length = delet.map (fun d => Change.delete (joinPath d)) ∧
        ∀ seg ∈ dirSegs, ∃ dpath ∈ dcopy, ∃ st ls sub,
          statOf fs dpath = .ok st ∧ listdirOf fs dpath = .ok ls ∧
          LocalFsProvider.sendchanges fs root fuel []
            (prefixed dpath ls.1) (prefixed dpath ls.2) = .ok sub ∧
          seg = Change.directory (joinPath dpath) st.1 st.2.1 :: sub) ∧
    (∀ (fs : FsEntry) (tmp : List String → String) (fuel : Nat)
      (delet dcopy fcopy : List (List String)) (cs : List Change),
      BlindFsProvider.sendchanges fs tmp (fuel + 1) delet dcopy fcopy = .ok cs →
      ∃ (dinfos : List (ℚ × ℚ × ℚ)) (dirSegs : List (List Change)) (finfos : List (ℚ × ℚ × ℚ)),
        mapME (statOf fs) dcopy = .ok dinfos ∧
        mapME (BlindFsProvider.dirSegment fs tmp fuel) (dcopy.zip dinfos) = .ok dirSegs ∧
        mapME (statOf fs) fcopy = .ok finfos ∧
        cs = delet.map (fun d => Change.delete (joinPath d)) ++
          dirSegs.flatten ++
          (fcopy.zip finfos).map (fun pr =>
            Change.file (joinPath pr.1) pr.2.1 pr.2.2.1 pr.2.2.2 (tmp pr.1) RECEIVER) ∧
        cs.take delet.length = delet.map (fun d => Change.delete (joinPath d)) ∧
        ∀ seg ∈ dirSegs, ∃ pr ∈ dcopy.zip dinfos, ∃ ls sub,
          listdirOf fs pr.1 = .ok ls ∧
          BlindFsProvider.sendchanges fs tmp fuel []
            (prefixed pr.1 ls.1) (prefixed pr.1 ls.2) = .ok sub ∧
          seg = Change.directory (joinPath pr.1) pr.2.1 pr.2.2.1 :: sub) := by
  constructor
  · intro fs root fuel delet dcopy fcopy cs h
    rw [LocalFsProvider.sendchanges] at h
    obtain ⟨dirSegs, h1, h2⟩ := except_bind_ok h
    obtain ⟨fileRecs, h3, h4⟩ := except_bind_ok h2
    cases h4
    refine ⟨dirSegs, fileRecs, h1, h3, rfl, ?_, ?_⟩
    · rw [List.append_assoc]
      exact List.take_left' (by rw [List.length_map])
    · intro seg hseg
      obtain ⟨dpath, hdp, hfd⟩ := mapME_ok_mem _ dcopy dirSegs h1 seg hseg
      obtain ⟨st, hst, hfd2⟩ := except_bind_ok hfd
      obtain ⟨ls, hls, hfd3⟩ := except_bind_ok hfd2
      obtain ⟨sub, hsub, hfd4⟩ := except_bind_ok hfd3
      cases hfd4
      exact ⟨dpath, hdp, st, ls, sub, hst, hls, hsub, rfl⟩
  · intro fs tmp fuel delet dcopy fcopy cs h
    rw [BlindFsProvider.sendchanges] at h
    obtain ⟨dinfos, h0, h1b⟩ := except_bind_ok h
    obtain ⟨dirSegs, h1, h2⟩ := except_bind_ok h1b
    obtain ⟨finfos, h3, h4⟩ := except_bind_ok h2
    cases h4
    refine ⟨dinfos, dirSegs, finfos, h0, h1, h3, rfl, ?_, ?_⟩
    · rw [List.append_assoc]
      exact List.take_left' (by rw [List.length_map])
    · intro seg hseg
      obtain ⟨pr, hpr, hfd⟩ := mapME_ok_mem _ (dcopy.zip dinfos) dirSegs h1 seg hseg
      obtain ⟨ls, hls, hfd2⟩ := except_bind_ok hfd
      obtain ⟨sub, hsub, hfd3⟩ := except_bind_ok hfd2
      cases hfd3
      exact ⟨pr, hpr, ls, sub, hls, hsub, rfl⟩

theorem sendchanges_stream_order_witness :
    ∃ (dirSegs : List (List Change)) (fileRecs : List Change),
      mapME
        (LocalFsProvider.dirSegment
          (FsEntry.dir 0 0 [("a", FsEntry.dir 1 2 [("b", FsEntry.file 3 4 [9])]),
            ("f", FsEntry.file 5 6 [1, 2])]) "root" 2) [["a"]] = .ok dirSegs ∧
      mapME
        (LocalFsProvider.fileRecord
          (FsEntry.dir 0 0 [("a", FsEntry.dir 1 2 [("b", FsEntry.file 3 4 [9])]),
            ("f", FsEntry.file 5 6 [1, 2])]) "root") [["f"]] = .ok fileRecs ∧
      [Change.delete "x", Change.directory "a" 1 2,
        Change.file "a/b" 3 4 1 "root/a/b" 0, Change.file "f" 5 6 2 "root/f" 0] =
        [["x"]].map (fun d => Change.delete (joinPath d)) ++ dirSegs.flatten ++ fileRecs ∧
      ([Change.delete "x", Change.directory "a" 1 2,
        Change.file "a/b" 3 4 1 "root/a/b" 0,
        Change.file "f" 5 6 2 "root/f" 0].take [["x"]].length) =
        [["x"]].map (fun d => Change.delete (joinPath d)) ∧
      ∀ seg ∈ dirSegs, ∃ dpath ∈ [["a"]], ∃ st ls sub,
        statOf (FsEntry.dir 0 0 [("a", FsEntry.dir 1 2 [("b", FsEntry.file 3 4 [9])]),
          ("f", FsEntry.file 5 6 [1, 2])]) dpath = .ok st ∧
        listdirOf (FsEntry.dir 0 0 [("a", FsEntry.dir 1 2 [("b", FsEntry.file 3 4 [9])]),
          ("f", FsEntry.file 5 6 [1, 2])]) dpath = .ok ls ∧
        LocalFsProvider.sendchanges
          (FsEntry.dir 0 0 [("a", FsEntry.dir 1 2 [("b", FsEntry.file 3 4 [9])]),
            ("f", FsEntry.file 5 6 [1, 2])]) "root" 2 []
          (prefixed dpath ls.1) (prefixed dpath ls.2) = .ok sub ∧
        seg = Change.directory (joinPath dpath) st.1 st.2.1 :: sub :=
  sendchanges_stream_order.1
    (FsEntry.dir 0 0 [("a", FsEntry.dir 1 2 [("b", FsEntry.file 3 4 [9])]),
      ("f", FsEntry.file 5 6 [1, 2])])
    "root" 2 [["x"]] [["a"]] [["f"]]
    [Change.delete "x", Change.directory "a" 1 2,
      Change.file "a/b" 3 4 1 "root/a/b" 0, Change.file "f" 5 6 2 "root/f" 0]
    (by rfl)

namespace LocalFsProvider

/-- The regular files on disk during the handling of one FILE record: an
association of local paths to contents. -/
abbrev FState := List (String × Bytes)

def lookupF (fs : FState) (p : String) : Option Bytes :=
  (fs.find? (fun e => e.1 == p)).map (fun e => e.2)

/-- Semantics of opening a path for writing and writing data to it. -/
def fwrite (fs : FState) (p : String) (data : Bytes) : FState :=
  fs.filter (fun e => !(e.1 == p)) ++ [(p, data)]

/-- os.unlink (no error when the path is absent; the handler only unlinks
paths it knows exist). -/
def funlink (fs : FState) (p : String) : FState :=
  fs.filter (fun e => !(e.1 == p))

/-- os.rename of a regular file. -/
def frename (fs : FState) (src dst : String) : FState :=
  match lookupF fs src with
  | some d => fwrite (funlink fs src) dst d
  | none => fs

/-- The bytes recrypt_file leaves in its output file, also when it raises:
nothing when the error strikes before the output file is opened (input
shorter than header plus IV), otherwise the copied size header, the fresh
IV and the loop output produced before the failure. -/
def recrypt_written (C : BlockCipher) (dkey ekey iv2 : Bytes) (cs : Nat)
    (input : Bytes) : Option Bytes :=
  if input.length < 24 then none
  else some (cryptfile.struct_packQ (cryptfile.struct_unpackQ (input.take 8)) ++ iv2 ++
    cryptfile.recrypt_loop C dkey ekey cs ((input.drop 24).length + 1)
      ((input.drop 8).take 16, []) (iv2, []) (input.drop 24))

/-- The bytes decrypt_file leaves in its output file, also when it raises
after the output file was opened. -/
def decrypt_written (C : BlockCipher) (key : Bytes) (cs : Nat)
    (input : Bytes) : Option Bytes :=
  if input.length < 24 then none
  else
    let origsize := cryptfile.struct_unpackQ (input.take 8)
    let ct := input.drop 24
    let pt := cryptfile.decrypt_loop C key cs (ct.length + 1) ((input.drop 8).take 16, []) ct
    if ct.length % 16 ≠ 0 then some pt
    else if pt.length < origsize then some pt
    else some (pt.take origsize)

/-- The FILE branch of LocalFsProvider.receivechanges for one record.

Inputs: the provider keys (encryptionkey, decryptionkey), the randomness
consumed by an encrypting transform (iv, rand, iv2), the path re-cryption
map pathXform (recrypt_path_items composed with the slash join), the
file_data_in_change flag with the inline bytes fdata, the record fields
(selpath, source path, owner) and the current files fs.

Faithful control flow: with file_data_in_change the inline bytes are first
written to dstpath.~ftmp, which becomes a RECEIVER-owned source; the body is
then transformed (recrypt / encrypt / decrypt / rename / copy) into
dstpath.~tmp; the destination is removed and the temp renamed over it and
its times restored; the finally clause unlinks the source path exactly when
delete_orig is set.  A transform error propagates after the finally clause;
whatever the transform had already written to dstpath.~tmp stays behind.
Returns the propagated outcome and the final files. -/
def receive_file (C : BlockCipher) (cs : Nat) (enckey deckey : Option Bytes)
    (iv rand iv2 : Bytes) (pathXform : String → String) (fdic : Bool)
    (selpath : String) (fsource0 : String) (fdata : Bytes) (owner : Nat)
    (fs : FState) : Except String Unit × FState :=
  let dstpath := pathXform selpath
  let fs0 := if fdic then fwrite fs (dstpath ++ ".~ftmp") fdata else fs
  let fsource := if fdic then dstpath ++ ".~ftmp" else fsource0
  let owner1 := if fdic then RECEIVER else owner
  let delete_orig := if fdic then true else decide (owner = RECEIVER)
  let finallyStep := fun (st : FState) => if delete_orig then funlink st fsource else st
  let proceed := fun (out : Bytes) =>
    let st1 := fwrite fs0 (dstpath ++ ".~tmp") out
    let st2 := funlink st1 dstpath
    let st3 := frename st2 (dstpath ++ ".~tmp") dstpath
    (Except.ok (), finallyStep st3)
  let abort := fun (e : String) (written : Option Bytes) =>
    let st1 := match written with
      | some w => fwrite fs0 (dstpath ++ ".~tmp") w
      | none => fs0
    (Except.error e, finallyStep st1)
  match lookupF fs0 fsource with
  | none => (Except.error "FileNotFoundError", finallyStep fs0)
  | some content =>
    match enckey, deckey with
    | some ek, some dk =>
      match cryptfile.recrypt_file C dk ek iv2 cs content with
      | .ok out => proceed out
      | .error e => abort e (recrypt_written C dk ek iv2 cs content)
    | some ek, none => proceed (cryptfile.encrypt_file C ek iv cs content rand)
    | none, some dk =>
      match cryptfile.decrypt_file C dk cs content with
      | .ok out => proceed out
      | .error e => abort e (decrypt_written C dk cs content)
    | none, none =>
      if owner1 = RECEIVER then
        let st1 := frename fs0 fsource (dstpath ++ ".~tmp")
        let st2 := funlink st1 dstpath
        let st3 := frename st2 (dstpath ++ ".~tmp") dstpath
        (Except.ok (), st3)
      else proceed content

theorem find?_filter_other (p q : String) (h : q ≠ p) :
    ∀ fs : FState, (fs.filter (fun e => !(e.1 == p))).find? (fun e => e.1 == q) =
      fs.find? (fun e => e.1 == q)
  | [] => rfl
  | e :: rest => by
    by_cases hep : e.1 = p
    · rw [List.filter_cons_of_neg (by simp [hep])]
      rw [List.find?_cons_of_neg _ (by simp [hep]; exact fun hh => h hh.symm)]
      exact find?_filter_other p q h rest
    · rw [List.filter_cons_of_pos (by simp [hep])]
      by_cases heq : e.1 = q
      · rw [List.find?_cons_of_pos _ (by simpa using heq),
          List.find?_cons_of_pos _ (by simpa using heq)]
      · rw [List.find?_cons_of_neg _ (by simpa using heq),
          List.find?_cons_of_neg _ (by simpa using heq)]
        exact find?_filter_other p q h rest

theorem find?_filter_self (p : String) (fs : FState) :
    (fs.filter (fun e => !(e.1 == p))).find? (fun e => e.1 == p) = none := by
  rw [List.find?_eq_none]
  intro e he
  simp only [List.mem_filter] at he
  simpa using he.2

theorem lookupF_fwrite_self (fs : FState) (p : String) (d : Bytes) :
    lookupF (fwrite fs p d) p = some d := by
  unfold lookupF fwrite
  rw [List.find?_append, find?_filter_self]
  simp [List.find?]

theorem lookupF_fwrite_other (fs : FState) (p : String) (d : Bytes) (q : String)
    (h : q ≠ p) : lookupF (fwrite fs p d) q = lookupF fs q := by
  unfold lookupF fwrite
  rw [List.find?_append, find?_filter_other p q h fs]
  cases hf : fs.find? (fun e => e.1 == q) with
  | none =>
    have hpq : (p == q) = false := by
      simp only [beq_eq_false_iff_ne, ne_eq]
      exact fun hh => h hh.symm
    simp [List.find?, hpq]
  | some e => simp

theorem lookupF_funlink_self (fs : FState) (p : String) :
    lookupF (funlink fs p) p = none := by
  unfold lookupF funlink
  rw [find?_filter_self]
  rfl

theorem lookupF_funlink_other (fs : FState) (p q : String) (h : q ≠ p) :
    lookupF (funlink fs p) q = lookupF fs q := by
  unfold lookupF funlink
  rw [find?_filter_other p q h fs]

theorem lookupF_funlink_none (fs : FState) (p q : String)
    (h : lookupF fs q = none) : lookupF (funlink fs p) q = none := by
  by_cases hqp : q = p
  · rw [hqp]
    exact lookupF_funlink_self fs p
  · rw [lookupF_funlink_other fs p q hqp]
    exact h

theorem lookupF_frename_src (fs : FState) (src dst : String) (hne : src ≠ dst) :
    lookupF (frename fs src dst) src = none := by
  unfold frename
  rcases hsf : lookupF fs src with _ | d
  · exact hsf
  · show lookupF (fwrite (funlink fs src) dst d) src = none
    rw [lookupF_fwrite_other _ _ _ _ hne]
    exact lookupF_funlink_self fs src

theorem lookupF_frename_other (fs : FState) (src dst q : String)
    (h1 : q ≠ src) (h2 : q ≠ dst) :
    lookupF (frename fs src dst) q = lookupF fs q := by
  unfold frename
  rcases hsf : lookupF fs src with _ | d
  · rfl
  · show lookupF (fwrite (funlink fs src) dst d) q = lookupF fs q
    rw [lookupF_fwrite_other _ _ _ _ h2]
    exact lookupF_funlink_other fs src q h1

theorem str_ne_of_length_ne {s t : String} (h : s.length ≠ t.length) : s ≠ t :=
  fun hh => h (congrArg String.length hh)

theorem append_tmp_ne_self (s : String) : s ++ ".~tmp" ≠ s :=
  str_ne_of_length_ne (by simp [String.length_append]; decide)

theorem append_ftmp_ne_self (s : String) : s ++ ".~ftmp" ≠ s :=
  str_ne_of_length_ne (by simp [String.length_append]; decide)

theorem append_ftmp_ne_tmp (s : String) : s ++ ".~ftmp" ≠ s ++ ".~tmp" :=
  str_ne_of_length_ne (by simp [String.length_append]; decide)

theorem append_tmp_ne_ftmp (s : String) : s ++ ".~tmp" ≠ s ++ ".~ftmp" :=
  str_ne_of_length_ne (by simp [String.length_append]; decide)

theorem cond_funlink_none (st : FState) (b : Bool) (p q : String)
    (h : lookupF st q = none) :
    lookupF (if b then funlink st p else st) q = none := by
  cases b
  · exact h
  · exact lookupF_funlink_none st p q h

end LocalFsProvider

/-- An encrypted input whose ciphertext is not block-aligned: re-cryption
fails halfway through, after the staging file has been opened and written. -/
def badEncrypted : Bytes :=
  cryptfile.struct_packQ 32 ++ List.replicate 16 0 ++ List.replicate 8 5

/-- C8 counterexample: a RECEIVER-owned FILE record whose body is a corrupt
encrypted file is handled with both keys set.  recrypt_file raises after
writing the header and IV into dstpath.~tmp; the handler propagates the
error and its finally clause unlinks the source body — but the partially
written dstpath.~tmp stays on disk after the handler exits, contradicting
the claim that every temporary file of the record is unlinked on every exit
path. -/
theorem receive_file_tmp_left_behind :
    (LocalFsProvider.receive_file idCipher 2048 (some [1]) (some [2]) [] []
        (List.replicate 16 0) (fun s => s) false "dst" "src" [] RECEIVER
        [("src", badEncrypted)]).1 =
      .error "ValueError: data not multiple of block length" ∧
      LocalFsProvider.lookupF
        (LocalFsProvider.receive_file idCipher 2048 (some [1]) (some [2]) [] []
          (List.replicate 16 0) (fun s => s) false "dst" "src" [] RECEIVER
          [("src", badEncrypted)]).2 "dst.~tmp" =
        some (cryptfile.struct_packQ 32 ++ List.replicate 16 0) ∧
      LocalFsProvider.lookupF
        (LocalFsProvider.receive_file idCipher 2048 (some [1]) (some [2]) [] []
          (List.replicate 16 0) (fun s => s) false "dst" "src" [] RECEIVER
          [("src", badEncrypted)]).2 "src" = none :=
  ⟨by rfl, by rfl, by rfl⟩

/-- C8 (amended): on normal completion of the FILE record handler no
temporary file remains — the staging file dstpath.~tmp has been renamed over
the destination, the inline-data file dstpath.~ftmp is gone, and a
RECEIVER-owned source body has been unlinked (or consumed by the zero-copy
rename).  On an error raised during re-cryption, copy or rename, the finally
clause still unlinks the inline-data file and the RECEIVER-owned source
body; the staging file dstpath.~tmp however may remain (see the
counterexample). -/
theorem receive_file_cleanup (C : BlockCipher) (cs : Nat)
    (enckey deckey : Option Bytes) (iv rand iv2 : Bytes)
    (pathXform : String → String) (fdic : Bool) (selpath fsource0 : String)
    (fdata : Bytes) (owner : Nat) (fs : LocalFsProvider.FState)
    (hST : fsource0 ≠ pathXform selpath ++ ".~tmp")
    (hSD : fsource0 ≠ pathXform selpath) :
    ((LocalFsProvider.receive_file C cs enckey deckey iv rand iv2 pathXform fdic
        selpath fsource0 fdata owner fs).1 = .ok () →
      LocalFsProvider.lookupF
          (LocalFsProvider.receive_file C cs enckey deckey iv rand iv2 pathXform fdic
            selpath fsource0 fdata owner fs).2 (pathXform selpath ++ ".~tmp") = none ∧
        (fdic = true →
          LocalFsProvider.lookupF
            (LocalFsProvider.receive_file C cs enckey deckey iv rand iv2 pathXform fdic
              selpath fsource0 fdata owner fs).2 (pathXform selpath ++ ".~ftmp") = none) ∧
        (fdic = false → owner = RECEIVER →
          LocalFsProvider.lookupF
            (LocalFsProvider.receive_file C cs enckey deckey iv rand iv2 pathXform fdic
              selpath fsource0 fdata owner fs).2 fsource0 = none)) ∧
    (∀ err : String,
      (LocalFsProvider.receive_file C cs enckey deckey iv rand iv2 pathXform fdic
        selpath fsource0 fdata owner fs).1 = .error err →
      (fdic = true →
        LocalFsProvider.lookupF
          (LocalFsProvider.receive_file C cs enckey deckey iv rand iv2 pathXform fdic
            selpath fsource0 fdata owner fs).2 (pathXform selpath ++ ".~ftmp") = none) ∧
      (fdic = false → owner = RECEIVER →
        LocalFsProvider.lookupF
          (LocalFsProvider.receive_file C cs enckey deckey iv rand iv2 pathXform fdic
            selpath fsource0 fdata owner fs).2 fsource0 = none)) := by
  set D := pathXform selpath with hD
  have hTD : D ++ ".~tmp" ≠ D := LocalFsProvider.append_tmp_ne_self D
  have hFD : D ++ ".~ftmp" ≠ D := LocalFsProvider.append_ftmp_ne_self D
  have hFT : D ++ ".~ftmp" ≠ D ++ ".~tmp" := LocalFsProvider.append_ftmp_ne_tmp D
  unfold LocalFsProvider.receive_file
  rw [← hD]
  cases fdic with
  | false =>
    simp only [Bool.false_eq_true, if_false]
    split
    · -- the source body cannot be opened; no temp file was created
      refine ⟨fun hok => absurd hok (by simp), fun err _ => ⟨fun h => absurd h (by simp), ?_⟩⟩
      intro _ hrecv
      dsimp only
      rw [if_pos (by simpa using hrecv : decide (owner = RECEIVER) = true)]
      exact LocalFsProvider.lookupF_funlink_self _ _
    · split
      · -- both keys: recrypt
        split
        · -- recrypt succeeded
          refine ⟨fun _ => ⟨?_, fun h => absurd h (by simp), ?_⟩,
            fun err herr => absurd herr (by simp)⟩
          · exact LocalFsProvider.cond_funlink_none _ _ _ _
              (LocalFsProvider.lookupF_frename_src _ _ _ hTD)
          · intro _ hrecv
            dsimp only
            rw [if_pos (by simpa using hrecv : decide (owner = RECEIVER) = true)]
            exact LocalFsProvider.lookupF_funlink_self _ _
        · -- recrypt raised: only the source body is cleaned up
          refine ⟨fun hok => absurd hok (by simp),
            fun err _ => ⟨fun h => absurd h (by simp), ?_⟩⟩
          intro _ hrecv
          dsimp only
          rw [if_pos (by simpa using hrecv : decide (owner = RECEIVER) = true)]
          exact LocalFsProvider.lookupF_funlink_self _ _
      · -- encryption key only
        refine ⟨fun _ => ⟨?_, fun h => absurd h (by simp), ?_⟩,
          fun err herr => absurd herr (by simp)⟩
        · exact LocalFsProvider.cond_funlink_none _ _ _ _
            (LocalFsProvider.lookupF_frename_src _ _ _ hTD)
        · intro _ hrecv
          dsimp only
          rw [if_pos (by simpa using hrecv : decide (owner = RECEIVER) = true)]
          exact LocalFsProvider.lookupF_funlink_self _ _
      · -- decryption key only
        split
        · refine ⟨fun _ => ⟨?_, fun h => absurd h (by simp), ?_⟩,
            fun err herr => absurd herr (by simp)⟩
          · exact LocalFsProvider.cond_funlink_none _ _ _ _
              (LocalFsProvider.lookupF_frename_src _ _ _ hTD)
          · intro _ hrecv
            dsimp only
            rw [if_pos (by simpa using hrecv : decide (owner = RECEIVER) = true)]
            exact LocalFsProvider.lookupF_funlink_self _ _
        · refine ⟨fun hok => absurd hok (by simp),
            fun err _ => ⟨fun h => absurd h (by simp), ?_⟩⟩
          intro _ hrecv
          dsimp only
          rw [if_pos (by simpa using hrecv : decide (owner = RECEIVER) = true)]
          exact LocalFsProvider.lookupF_funlink_self _ _
      · -- no keys: zero-copy rename or plain copy
        split
        · -- RECEIVER owned: zero-copy, delete_orig cleared
          refine ⟨fun _ => ⟨?_, fun h => absurd h (by simp), ?_⟩,
            fun err herr => absurd herr (by simp)⟩
          · exact LocalFsProvider.lookupF_frename_src _ _ _ hTD
          · intro _ _
            dsimp only
            rw [LocalFsProvider.lookupF_frename_other _ _ _ _ hST hSD,
              LocalFsProvider.lookupF_funlink_other _ _ _ hSD]
            exact LocalFsProvider.lookupF_frename_src _ _ _ hST
        · -- SENDER owned: copy then (vacuously) unlink
          rename_i howner
          refine ⟨fun _ => ⟨?_, fun h => absurd h (by simp), ?_⟩,
            fun err herr => absurd herr (by simp)⟩
          · exact LocalFsProvider.cond_funlink_none _ _ _ _
              (LocalFsProvider.lookupF_frename_src _ _ _ hTD)
          · intro _ hrecv
            exact absurd hrecv howner
  | true =>
    simp only [if_true]
    split
    · -- inline data was just written, so this branch is about a vanished file
      refine ⟨fun hok => absurd hok (by simp), fun err _ => ⟨?_, ?_⟩⟩
      · intro _
        dsimp only
        exact LocalFsProvider.lookupF_funlink_self _ _
      · intro h
        exact absurd h (by simp)
    · split
      · split
        · -- recrypt succeeded
          refine ⟨fun _ => ⟨?_, ?_, fun h => absurd h (by simp)⟩,
            fun err herr => absurd herr (by simp)⟩
          · exact LocalFsProvider.lookupF_funlink_none _ _ _
              (LocalFsProvider.lookupF_frename_src _ _ _ hTD)
          · intro _
            dsimp only
            exact LocalFsProvider.lookupF_funlink_self _ _
        · -- recrypt raised: the inline temp is still unlinked by the finally
          refine ⟨fun hok => absurd hok (by simp), fun err _ => ⟨?_, ?_⟩⟩
          · intro _
            dsimp only
            exact LocalFsProvider.lookupF_funlink_self _ _
          · intro h
            exact absurd h (by simp)
      · refine ⟨fun _ => ⟨?_, ?_, fun h => absurd h (by simp)⟩,
          fun err herr => absurd herr (by simp)⟩
        · exact LocalFsProvider.lookupF_funlink_none _ _ _
            (LocalFsProvider.lookupF_frename_src _ _ _ hTD)
        · intro _
          dsimp only
          exact LocalFsProvider.lookupF_funlink_self _ _
      · split
        · refine ⟨fun _ => ⟨?_, ?_, fun h => absurd h (by simp)⟩,
            fun err herr => absurd herr (by simp)⟩
          · exact LocalFsProvider.lookupF_funlink_none _ _ _
              (LocalFsProvider.lookupF_frename_src _ _ _ hTD)
          · intro _
            dsimp only
            exact LocalFsProvider.lookupF_funlink_self _ _
        · refine ⟨fun hok => absurd hok (by simp), fun err _ => ⟨?_, ?_⟩⟩
          · intro _
            dsimp only
            exact LocalFsProvider.lookupF_funlink_self _ _
          · intro h
            exact absurd h (by simp)
      · -- owner is forced to RECEIVER: zero-copy of the inline temp
        refine ⟨fun _ => ⟨?_, ?_, fun h => absurd h (by simp)⟩,
          fun err herr => absurd herr (by simp)⟩
        · exact LocalFsProvider.lookupF_frename_src _ _ _ hTD
        · intro _
          dsimp only
          rw [LocalFsProvider.lookupF_frename_other _ _ _ _ hFT hFD,
            LocalFsProvider.lookupF_funlink_other _ _ _ hFD]
          exact LocalFsProvider.lookupF_frename_src _ _ _ hFT

theorem receive_file_cleanup_witness :
    LocalFsProvider.lookupF
        (LocalFsProvider.receive_file idCipher 16 none none [] [] [] (fun s => s)
          false "dst" "src" [] RECEIVER [("src", [7, 8])]).2 ("dst" ++ ".~tmp") = none ∧
      LocalFsProvider.lookupF
        (LocalFsProvider.receive_file idCipher 16 none none [] [] [] (fun s => s)
          false "dst" "src" [] RECEIVER [("src", [7, 8])]).2 "src" = none :=
  have h := receive_file_cleanup idCipher 16 none none [] [] [] (fun s => s)
    false "dst" "src" [] RECEIVER [("src", [7, 8])] (by decide) (by decide)
  ⟨(h.1 (by rfl)).1, (h.1 (by rfl)).2.2 rfl rfl⟩

end BlindBackup
